import Mathlib

/-!
The program `count`, a line counter for text files: a shallow embedding of
`cmd/count/main.go`.

* A Go `string` / `[]byte` is a list of bytes (`List Nat`, every element below 256 in a
  well-formed value).
* The operating system is an explicit record `World` of total functions: `os.Stat`,
  `os.ReadDir`, `os.ReadFile` and `os.Getwd` either fail with an error or return a value;
  the record also carries the Unicode range tables of the standard library.
* The package-level variables `paths`, `ext`, `excludes`, `tree` are the record `Config`.
* Standard output is a list of `Event`s; a function that prints returns what it printed
  together with its error.
* `mkindex` and `mktree` recurse on the file system, which may be cyclic, so they carry a
  fuel argument bounding the recursion depth and can answer `Outcome.timeout`.
* `mkindexL` and `mktreeL` are `mkindex` and `mktree` with a log of the `os` calls and of
  the recursive calls they make; the results are proved equal to those of the plain
  functions.
-/

namespace Count

/-! ## Go strings and the `strings` package -/

/-- Go `string`: a sequence of bytes. -/
abbrev GoString := List Nat

/-- Byte `'\n'`. -/
def LF : Nat := 10
/-- Byte `'.'`. -/
def DOT : Nat := 46
/-- Byte `'/'`. -/
def SLASH : Nat := 47

/-- Go `strings.HasPrefix(s, prefix)`. -/
def HasPrefix : GoString → GoString → Bool
  | _, [] => true
  | [], _ :: _ => false
  | c :: s, d :: p => c == d && HasPrefix s p

/-- Go `strings.Split(s, sep)` for a one-byte separator: the segments between successive
occurrences of `sep`, the segment after the last occurrence included. -/
def Split (s : GoString) (sep : Nat) : List GoString :=
  match s with
  | [] => [[]]
  | c :: rest =>
    if c = sep then [] :: Split rest sep
    else
      match Split rest sep with
      | [] => [[c]]
      | seg :: segs => (c :: seg) :: segs

/-! ## The `path` package -/

/-- Go `path.Ext`: scanning backwards, the suffix starting at the last `'.'` of the last
slash-separated element; empty when that element has no dot. `extScan` walks the reversed
path carrying the bytes already passed. -/
def extScan : List Nat → List Nat → GoString
  | [], _ => []
  | c :: rev, seen =>
    if c = SLASH then []
    else if c = DOT then c :: seen
    else extScan rev (c :: seen)

/-- Go `path.Ext(path)`. -/
def Ext (path : GoString) : GoString := extScan path.reverse []

/-- Remove the trailing slashes of a reversed path. -/
def dropSlashes : List Nat → List Nat
  | [] => []
  | c :: rev => if c = SLASH then dropSlashes rev else c :: rev

/-- Take the bytes of a reversed path up to the first slash. -/
def takeElem : List Nat → List Nat
  | [] => []
  | c :: rev => if c = SLASH then [] else c :: takeElem rev

/-- Go `path.Base(path)`: `"."` for the empty path, else the last element after removing
trailing slashes, `"/"` when nothing is left. -/
def Base (path : GoString) : GoString :=
  if path = [] then [DOT]
  else
    let p := (takeElem (dropSlashes path.reverse)).reverse
    if p = [] then [SLASH] else p

/-- The `..` case of `path.Clean` when `out.w > dotdot`: `out.w--`, then `out.w--` again as
long as `out.w > dotdot` and the byte just dropped is not a slash. The buffer is kept
reversed; `x` is the byte just dropped. -/
def backtrack (dotdot : Nat) : List Nat → Nat → List Nat
  | [], _ => []
  | y :: out, x =>
    if (y :: out).length > dotdot ∧ x ≠ SLASH then backtrack dotdot out y else y :: out

/-- The copy loop of `path.Clean`: move bytes up to the next slash onto the (reversed)
buffer; returns the rest of the input and the buffer. -/
def copyElem : List Nat → List Nat → List Nat × List Nat
  | [], out => ([], out)
  | c :: p, out => if c = SLASH then (c :: p, out) else copyElem p (c :: out)

/-- The main loop of Go `path.Clean`: `p` is the input still to read, `out` the reversed
output buffer, `dotdot` the index where `..` must stop. Each round consumes at least one
byte, so `fuel` larger than the input length is enough. -/
def cleanLoop (rooted : Bool) : Nat → List Nat → List Nat → Nat → List Nat
  | 0, _, out, _ => out
  | _ + 1, [], out, _ => out
  | fuel + 1, c :: p, out, dotdot =>
    if c = SLASH then
      cleanLoop rooted fuel p out dotdot
    else if c = DOT ∧ (p = [] ∨ p.head? = some SLASH) then
      cleanLoop rooted fuel p out dotdot
    else if c = DOT ∧ p.head? = some DOT ∧ (p.tail = [] ∨ p.tail.head? = some SLASH) then
      if out.length > dotdot then
        match out with
        | [] => cleanLoop rooted fuel p.tail out dotdot
        | x :: out1 => cleanLoop rooted fuel p.tail (backtrack dotdot out1 x) dotdot
      else if ¬ rooted then
        let out1 := if out.length > 0 then SLASH :: out else out
        let out2 := DOT :: DOT :: out1
        cleanLoop rooted fuel p.tail out2 out2.length
      else
        cleanLoop rooted fuel p.tail out dotdot
    else
      let out1 :=
        if (rooted ∧ out.length ≠ 1) ∨ (¬ rooted ∧ out.length ≠ 0) then SLASH :: out else out
      let r := copyElem (c :: p) out1
      cleanLoop rooted fuel r.1 r.2 dotdot

/-- Go `path.Clean(path)`. -/
def Clean (path : GoString) : GoString :=
  match path with
  | [] => [DOT]
  | c :: p =>
    let rooted : Bool := c = SLASH
    let out :=
      if rooted then cleanLoop rooted (path.length + 1) p [SLASH] 1
      else cleanLoop rooted (path.length + 1) (c :: p) [] 0
    if out.length = 0 then [DOT] else out.reverse

/-- The loop of Go `path.Join` that fills the buffer: an element is added when the buffer
is not empty or the element is not empty, after a slash when the buffer is not empty. -/
def joinBuf : List GoString → List Nat → List Nat
  | [], buf => buf
  | e :: elem, buf =>
    if buf.length > 0 ∨ e ≠ [] then
      joinBuf elem ((if buf.length > 0 then buf ++ [SLASH] else buf) ++ e)
    else joinBuf elem buf

/-- Go `path.Join(elem...)`. -/
def Join (elem : List GoString) : GoString :=
  if (elem.map List.length).sum = 0 then []
  else Clean (joinBuf elem [])

/-! ## The `unicode/utf8` and `unicode` packages -/

/-- Is `b` a UTF-8 continuation byte within `[lo, hi]`? -/
def inRange (lo hi b : Nat) : Bool := lo ≤ b && b ≤ hi

/-- Go `utf8.DecodeRune` at the front of `s` (also what `for range` over a string does):
the rune and the number of bytes it takes; an invalid or truncated encoding gives
`(0xFFFD, 1)`. `s` is not empty. -/
def DecodeRune (s : List Nat) : Nat × Nat :=
  match s with
  | [] => (0xFFFD, 0)
  | b0 :: t =>
    if b0 < 0x80 then (b0, 1)
    else if inRange 0xC2 0xDF b0 then
      match t with
      | b1 :: _ =>
        if inRange 0x80 0xBF b1 then ((b0 % 0x20) * 0x40 + b1 % 0x40, 2) else (0xFFFD, 1)
      | _ => (0xFFFD, 1)
    else if inRange 0xE0 0xEF b0 then
      let lo := if b0 = 0xE0 then 0xA0 else 0x80
      let hi := if b0 = 0xED then 0x9F else 0xBF
      match t with
      | b1 :: b2 :: _ =>
        if inRange lo hi b1 && inRange 0x80 0xBF b2 then
          ((b0 % 0x10) * 0x1000 + (b1 % 0x40) * 0x40 + b2 % 0x40, 3)
        else (0xFFFD, 1)
      | _ => (0xFFFD, 1)
    else if inRange 0xF0 0xF4 b0 then
      let lo := if b0 = 0xF0 then 0x90 else 0x80
      let hi := if b0 = 0xF4 then 0x8F else 0xBF
      match t with
      | b1 :: b2 :: b3 :: _ =>
        if inRange lo hi b1 && inRange 0x80 0xBF b2 && inRange 0x80 0xBF b3 then
          ((b0 % 0x08) * 0x40000 + (b1 % 0x40) * 0x1000 + (b2 % 0x40) * 0x40 + b3 % 0x40, 4)
        else (0xFFFD, 1)
      | _ => (0xFFFD, 1)
    else (0xFFFD, 1)

/-- Is the encoding at the front of `s` well formed? Go reports an ill-formed one as
`(RuneError, 1)`; the well-formed encoding of U+FFFD is three bytes long. -/
def validFront (s : List Nat) : Bool :=
  let d := DecodeRune s
  !(d.1 == 0xFFFD && d.2 == 1)

/-- The runes a Go `for _, r := range string(f)` loop visits, in order; `skip` is the
number of bytes still belonging to the rune decoded last. -/
def runesFrom : Nat → List Nat → List Nat
  | _, [] => []
  | 0, b :: t => (DecodeRune (b :: t)).1 :: runesFrom ((DecodeRune (b :: t)).2 - 1) t
  | skip + 1, _ :: t => runesFrom skip t

/-- The runes of `for _, r := range string(f)`. -/
def rangeRunes (f : List Nat) : List Nat := runesFrom 0 f

/-- Every encoding met from the front on is well formed; `skip` as in `runesFrom`. -/
def validFrom : Nat → List Nat → Bool
  | _, [] => true
  | 0, b :: t => validFront (b :: t) && validFrom ((DecodeRune (b :: t)).2 - 1) t
  | skip + 1, _ :: t => validFrom skip t

/-- Go `utf8.Valid(p)`. -/
def utf8Valid (p : List Nat) : Bool := validFrom 0 p

/-- The range tables of Go's `unicode` package for runes above U+00FF, which the program
takes from the standard library: membership in `unicode.PrintRanges` and in
`unicode.White_Space`. -/
structure UnicodeTables where
  printRanges : Nat → Bool
  whiteSpace : Nat → Bool

/-- Go `unicode.IsPrint(r)`: for Latin-1 the `pp` bit of the `properties` table (U+0020 to
U+007E and U+00A1 to U+00FF except the soft hyphen U+00AD), above it the print ranges. -/
def IsPrint (u : UnicodeTables) (r : Nat) : Bool :=
  if r ≤ 0xFF then
    (0x20 ≤ r && r ≤ 0x7E) || (0xA1 ≤ r && r ≤ 0xFF && r != 0xAD)
  else u.printRanges r

/-- Go `unicode.IsSpace(r)`: for Latin-1 tab, line feed, vertical tab, form feed, carriage
return, space, U+0085 and U+00A0; above it the `White_Space` property. -/
def IsSpace (u : UnicodeTables) (r : Nat) : Bool :=
  if r ≤ 0xFF then
    r == 0x09 || r == 0x0A || r == 0x0B || r == 0x0C || r == 0x0D || r == 0x20 ||
      r == 0x85 || r == 0xA0
  else u.whiteSpace r

/-! ## The operating system, the configuration and the output -/

/-- An error returned by an `os` call. -/
abbrev OsError := Nat

/-- What the program takes from outside: the `os` calls it makes and the Unicode tables.
`Stat` answers `IsDir()`, `ReadDir` the entry names in the order the system lists them,
`ReadFile` the content. -/
structure World where
  Stat : GoString → Except OsError Bool
  ReadDir : GoString → Except OsError (List GoString)
  ReadFile : GoString → Except OsError GoString
  Getwd : Except OsError GoString
  tables : UnicodeTables

/-- The package-level variables set by the flag actions; `tree` is a `uint8`. -/
structure Config where
  paths : List GoString
  ext : GoString
  excludes : List GoString
  tree : Nat

/-- Result of a function that may fail with an `os` error; `timeout` is the embedding's
answer when the recursion went deeper than the fuel allows. -/
inductive Outcome (α : Type) where
  | ok (a : α)
  | error (e : OsError)
  | timeout
  deriving DecidableEq, Repr

/-- Go `map[string]int` as an association list with unique keys, in order of first
insertion (Go leaves the iteration order open). -/
abbrev Agg := List (GoString × Nat)

/-- Go `m[k]`: the value stored under `k`, `0` when there is none. -/
def mapGet : Agg → GoString → Nat
  | [], _ => 0
  | (k1, v) :: m, k => if k1 = k then v else mapGet m k

/-- Has the map an entry for `k`? -/
def mapHas : Agg → GoString → Bool
  | [], _ => false
  | (k1, _) :: m, k => if k1 = k then true else mapHas m k

/-- Go `m[k] += v`. -/
def mapAdd : Agg → GoString → Nat → Agg
  | [], k, v => [(k, 0 + v)]
  | (k1, v1) :: m, k, v => if k1 = k then (k1, v1 + v) :: m else (k1, v1) :: mapAdd m k v

/-- What the program prints: a report is the line `counting n files in currpath...` with
the rows `ext count` printed after it; `errorLine` is the error message `walk` prints;
`done` is the closing `done!`. -/
inductive Event where
  | report (currpath : GoString) (files : Nat) (rows : List (GoString × Nat))
  | errorLine (e : OsError)
  | done
  deriving DecidableEq, Repr

/-- Type `ptree`. -/
inductive ptree where
  | mk (paths : List GoString) (nodes : List ptree) (currpath : GoString)

/-- Field `paths`. -/
def ptree.paths : ptree → List GoString
  | .mk ps _ _ => ps

/-- Field `nodes`. -/
def ptree.nodes : ptree → List ptree
  | .mk _ ns _ => ns

/-- Field `currpath`. -/
def ptree.currpath : ptree → GoString
  | .mk _ _ c => c

/-! ## The program -/

/-- Function `isNeedExcludePath`. -/
def isNeedExcludePath (cfg : Config) (path : GoString) : Bool :=
  let fext := Ext path
  let file := Base path
  HasPrefix file [DOT] || cfg.excludes.contains file || cfg.excludes.contains fext

/-- Function `isNeedFilterByExt`. -/
def isNeedFilterByExt (cfg : Config) (path : GoString) : Bool :=
  let fext := Ext path
  cfg.ext != [] && fext != cfg.ext

/-- Function `countFileLines`. -/
def countFileLines (w : World) (path : GoString) : Except OsError Nat :=
  match w.ReadFile path with
  | .error err => .error err
  | .ok f => .ok (Split f LF).length

/-- The comparison `float64(printable)/float64(n) > textThreshold`, in integers. The
constant `0.8` is the double `7205759403792794 / 2^53`, the double after it is
`7205759403792795 / 2^53`, and the quotient is rounded to the nearest double, ties to the
even significand, so the rounded quotient exceeds the constant exactly when the real
quotient exceeds the midpoint `14411518807585589 / 2^54` of the two. Both conversions to
`float64` are exact below `2^53`. -/
def ratioAboveThreshold (printable n : Nat) : Bool :=
  decide (14411518807585589 * n < printable * 2 ^ 54)

/-- Function `isTextFile`. -/
def isTextFile (w : World) (path : GoString) : Bool :=
  match w.ReadFile path with
  | .error _ => false
  | .ok f =>
    if f.length = 0 then false
    else if !utf8Valid f then false
    else
      let printable :=
        (rangeRunes f).countP (fun r => IsPrint w.tables r || IsSpace w.tables r)
      ratioAboveThreshold printable f.length

/-- Lines 259 to 262 of `count`: the key of a path, its extension, or `"."` when it has
none. -/
def rextOf (path : GoString) : GoString :=
  if Ext path != [] then Ext path else [DOT]

/-- The loop of `count`: `res` is the map built so far. -/
def countLoop (w : World) : List GoString → Agg → Agg
  | [], res => res
  | path :: rest, res =>
    match countFileLines w path with
    | .error _ => countLoop w rest res
    | .ok fl => countLoop w rest (mapAdd res (rextOf path) fl)

/-- Function `count`: the map and the error, which is always `nil`. -/
def count (w : World) (findex : List GoString) : Agg × Option OsError :=
  (countLoop w findex [], none)

/-- Lines 239 to 245 of `mkindex`: the entry `ep` is appended unless it is excluded,
filtered by extension or not a text file. -/
def appendEntry (w : World) (cfg : Config) (ep : GoString) (findex : List GoString) :
    List GoString :=
  if isNeedExcludePath cfg ep || isNeedFilterByExt cfg ep then findex
  else if !isTextFile w ep then findex
  else findex ++ [ep]

/-- The inner loop of `mkindex` over the entries `es` of the directory `p`; `self` is the
recursive call of `mkindex`. -/
def mkindexEntries (w : World) (cfg : Config)
    (self : List GoString → Outcome (List GoString)) (p : GoString) :
    List GoString → List GoString → Outcome (List GoString)
  | [], findex => .ok findex
  | e :: es, findex =>
    if HasPrefix e [DOT] then mkindexEntries w cfg self p es findex
    else
      match w.Stat (Join [p, e]) with
      | .error err => .error err
      | .ok isDir =>
        if isDir then
          if isNeedExcludePath cfg (Join [p, e]) then mkindexEntries w cfg self p es findex
          else
            match self [Join [p, e]] with
            | .error err => .error err
            | .timeout => .timeout
            | .ok fi =>
              mkindexEntries w cfg self p es (appendEntry w cfg (Join [p, e]) (findex ++ fi))
        else mkindexEntries w cfg self p es (appendEntry w cfg (Join [p, e]) findex)

/-- The outer loop of `mkindex` over `paths`. -/
def mkindexPaths (w : World) (cfg : Config)
    (self : List GoString → Outcome (List GoString)) :
    List GoString → List GoString → Outcome (List GoString)
  | [], findex => .ok findex
  | p :: ps, findex =>
    match w.Stat p with
    | .error err => .error err
    | .ok isDir =>
      if !isDir then
        if isNeedExcludePath cfg p || isNeedFilterByExt cfg p then
          mkindexPaths w cfg self ps findex
        else mkindexPaths w cfg self ps (findex ++ [p])
      else if isNeedExcludePath cfg p then mkindexPaths w cfg self ps findex
      else
        match w.ReadDir p with
        | .error err => .error err
        | .ok es =>
          match mkindexEntries w cfg self p es findex with
          | .error err => .error err
          | .timeout => .timeout
          | .ok findex1 => mkindexPaths w cfg self ps findex1

/-- Function `mkindex`; `fuel` bounds the depth of the recursion. -/
def mkindex (w : World) (cfg : Config) : Nat → List GoString → Outcome (List GoString)
  | 0, _ => .timeout
  | fuel + 1, paths => mkindexPaths w cfg (fun ps => mkindex w cfg fuel ps) paths []

/-- The rows `printtree` prints for the map `res`. -/
def printedRows (cfg : Config) (res : Agg) : List (GoString × Nat) :=
  res.filter (fun r => !(r.1 == [DOT] || (cfg.ext != [] && r.1 != cfg.ext)))

/-- Function `printtree`: the events printed, or the error returned. -/
def printtree (w : World) (cfg : Config) (fuel : Nat) (currpath : GoString)
    (paths : List GoString) : Outcome (List Event) :=
  match mkindex w cfg fuel paths with
  | .error err => .error err
  | .timeout => .timeout
  | .ok findex =>
    if findex.length = 0 then .ok []
    else
      match count w findex with
      | (_, some err) => .error err
      | (res, none) => .ok [Event.report currpath findex.length (printedRows cfg res)]

/-- The loop of `mktree` over `paths`; `self` is the recursive call `mktree(t, ps, tdeep-1)`. -/
def mktreeLoop (w : World) (cfg : Config) (self : ptree → List GoString → Outcome ptree)
    (tdeep : Int) : List GoString → ptree → Outcome ptree
  | [], tree => .ok tree
  | p0 :: rest, tree =>
    match (if p0 = [DOT] then w.Getwd else .ok p0) with
    | .error err => .error err
    | .ok p =>
      if !isNeedExcludePath cfg p then
        match w.Stat p with
        | .error err => .error err
        | .ok isDir =>
          if isDir && tdeep != 0 then
            match w.ReadDir p with
            | .error err => .error err
            | .ok es =>
              match self (.mk [] [] p) (es.map (fun e => Join [p, e])) with
              | .error err => .error err
              | .timeout => .timeout
              | .ok t =>
                mktreeLoop w cfg self tdeep rest
                  (.mk (tree.paths ++ [p]) (tree.nodes ++ [t]) tree.currpath)
          else mktreeLoop w cfg self tdeep rest (.mk (tree.paths ++ [p]) tree.nodes tree.currpath)
      else mktreeLoop w cfg self tdeep rest tree

/-- Function `mktree`: the tree after the call, or the error; `fuel` bounds the depth of
the recursion. -/
def mktree (w : World) (cfg : Config) : Nat → ptree → List GoString → Int → Outcome ptree
  | 0, _, _, _ => .timeout
  | fuel + 1, tree, paths, tdeep =>
    if tdeep = -1 then .ok tree
    else mktreeLoop w cfg (fun t ps => mktree w cfg fuel t ps (tdeep - 1)) tdeep paths tree

mutual
/-- Function `walk`: the events printed and the error returned. `fuel` is handed to
`mkindex`. -/
def walk (w : World) (cfg : Config) (fuel : Nat) : ptree → Int → List Event × Outcome Unit
  | .mk paths nodes currpath, tdeep =>
    match (if tdeep = 0 ∧ paths.length > 0 ∧ currpath ≠ [] then
            printtree w cfg fuel currpath paths else .ok []) with
    | .error err => ([Event.errorLine err], .error err)
    | .timeout => ([], .timeout)
    | .ok evs =>
      if nodes.length = 0 then (evs, .ok ())
      else if tdeep > 0 then
        (evs ++ (walkNodes w cfg fuel nodes (tdeep - 1)).1,
          (walkNodes w cfg fuel nodes (tdeep - 1)).2)
      else (evs, .ok ())
/-- The loop `for _, n := range tree.nodes` of `walk`. -/
def walkNodes (w : World) (cfg : Config) (fuel : Nat) :
    List ptree → Int → List Event × Outcome Unit
  | [], _ => ([], .ok ())
  | n :: ns, tdeep =>
    match walk w cfg fuel n tdeep with
    | (evs, .ok _) =>
      (evs ++ (walkNodes w cfg fuel ns tdeep).1, (walkNodes w cfg fuel ns tdeep).2)
    | (evs, .error err) => (evs, .error err)
    | (evs, .timeout) => (evs, .timeout)
end

/-- Function `mainAction`: the events printed and the error returned. -/
def mainAction (w : World) (cfg : Config) (fuel : Nat) : List Event × Outcome Unit :=
  match w.Getwd with
  | .error err => ([], .error err)
  | .ok currpath =>
    let paths := if cfg.paths.length = 0 then [currpath] else cfg.paths
    let t := ptree.mk [] [] (if cfg.tree = 0 then currpath else [])
    let tdeep : Int := if cfg.tree > 0 then (cfg.tree : Int) + 1 else (cfg.tree : Int)
    match mktree w cfg fuel t paths tdeep with
    | .error err => ([], .error err)
    | .timeout => ([], .timeout)
    | .ok t1 =>
      match walk w cfg fuel t1 tdeep with
      | (evs, .error err) => (evs, .error err)
      | (evs, .timeout) => (evs, .timeout)
      | (evs, .ok _) => (evs ++ [Event.done], .ok ())

/-! ## What the aggregation and the index are compared with -/

/-- The lines of a file that can be read, nothing for one that cannot. -/
def readableLines (w : World) (path : GoString) : Option Nat :=
  match countFileLines w path with
  | .ok n => some n
  | .error _ => none

/-- What holds of every path of an index built from the list `all`: it is not excluded,
not filtered by extension, and it either is a non-directory listed in `all` itself or
passes text detection. -/
def Indexed (w : World) (cfg : Config) (all : List GoString) (q : GoString) : Prop :=
  isNeedExcludePath cfg q = false ∧ isNeedFilterByExt cfg q = false ∧
    ((q ∈ all ∧ w.Stat q = .ok false) ∨ isTextFile w q = true)

/-- The directory `p` is one `mkindex` lists: it is a directory, it is not excluded, and
its listing `es` can be read. -/
def OpenDir (w : World) (cfg : Config) (p : GoString) (es : List GoString) : Prop :=
  w.Stat p = .ok true ∧ isNeedExcludePath cfg p = false ∧ w.ReadDir p = .ok es

/-- The paths an index built from `paths` holds: a listed non-directory that is neither
excluded nor filtered by extension; an entry, not hidden, of a listed directory that is
neither excluded nor filtered and passes text detection; and, for an entry that is a
directory and not excluded, what the index built from that entry alone holds. -/
inductive Listed (w : World) (cfg : Config) : List GoString → GoString → Prop where
  | direct (paths : List GoString) (p : GoString) :
      p ∈ paths → w.Stat p = .ok false → isNeedExcludePath cfg p = false →
      isNeedFilterByExt cfg p = false → Listed w cfg paths p
  | entry (paths : List GoString) (p : GoString) (es : List GoString) (e : GoString) :
      p ∈ paths → OpenDir w cfg p es → e ∈ es → HasPrefix e [DOT] = false →
      isNeedExcludePath cfg (Join [p, e]) = false → isNeedFilterByExt cfg (Join [p, e]) = false →
      isTextFile w (Join [p, e]) = true → Listed w cfg paths (Join [p, e])
  | sub (paths : List GoString) (p : GoString) (es : List GoString) (e q : GoString) :
      p ∈ paths → OpenDir w cfg p es → e ∈ es → HasPrefix e [DOT] = false →
      w.Stat (Join [p, e]) = .ok true → isNeedExcludePath cfg (Join [p, e]) = false →
      Listed w cfg [Join [p, e]] q → Listed w cfg paths q

/-! ## The directories a run reports on -/

/-- The path `mktree` works with: the working directory in place of the literal `"."`. -/
def resolve (w : World) (p : GoString) : GoString :=
  if p = [DOT] then
    match w.Getwd with
    | .ok wd => wd
    | .error _ => p
  else p

/-- The listed paths that are not excluded, in order. -/
def visible (w : World) (cfg : Config) (ps : List GoString) : List GoString :=
  (ps.map (resolve w)).filter (fun p => !isNeedExcludePath cfg p)

/-- Is the path a directory? -/
def isDirectory (w : World) (p : GoString) : Bool :=
  match w.Stat p with
  | .ok b => b
  | .error _ => false

/-- The paths of the entries of a directory, in listing order. -/
def children (w : World) (d : GoString) : List GoString :=
  match w.ReadDir d with
  | .ok es => es.map (fun e => Join [d, e])
  | .error _ => []

/-- The directories located `n` levels below the listed paths, none of the directories on
the way excluded, in depth-first, listing order. -/
def dirsBelow (w : World) (cfg : Config) : Nat → List GoString → List GoString
  | 0, ps => (visible w cfg ps).filter (isDirectory w)
  | n + 1, ps =>
    ((visible w cfg ps).filter (isDirectory w)).flatMap (fun d => dirsBelow w cfg n (children w d))

/-- The report on the directory `d` alone: what `printtree` prints for `d` and the entries
of `d` that are not excluded. -/
def reportOf (w : World) (cfg : Config) (fuel : Nat) (d : GoString) : List Event :=
  match printtree w cfg fuel d (visible w cfg (children w d)) with
  | .ok evs => evs
  | _ => []

/-- The root paths of a run: the configured paths, the working directory when there are
none. -/
def roots (w : World) (cfg : Config) : List GoString :=
  if cfg.paths.length = 0 then
    match w.Getwd with
    | .ok wd => [wd]
    | .error _ => []
  else cfg.paths

/-- What walking the node of directory `d` prints when reports are due `m` levels below. -/
def nodeEvents (w : World) (cfg : Config) (fuel : Nat) : Nat → GoString → List Event
  | 0, d => reportOf w cfg fuel d
  | m + 1, d => (dirsBelow w cfg m (children w d)).flatMap (reportOf w cfg fuel)

/-! ## Example worlds -/

/-- What a path names in an example world. -/
inductive Node where
  | dir (names : List GoString)
  | file (content : GoString)
  | locked
  deriving DecidableEq

/-- Look a path up in a table. -/
def lookupNode : List (GoString × Node) → GoString → Option Node
  | [], _ => none
  | (q, n) :: tab, p => if q = p then some n else lookupNode tab p

/-- Unicode tables under which every rune above U+00FF is printable. -/
def allPrintable : UnicodeTables := ⟨fun _ => true, fun _ => false⟩

/-- The world described by a table and a working directory: a path outside the table does
not exist (error 2), a directory cannot be read as a file (error 21), a file cannot be
listed (error 20), a locked file can be inspected but not read (error 13). -/
def tableWorld (wd : GoString) (tab : List (GoString × Node)) : World where
  Stat p :=
    match lookupNode tab p with
    | some (.dir _) => .ok true
    | some _ => .ok false
    | none => .error 2
  ReadDir p :=
    match lookupNode tab p with
    | some (.dir names) => .ok names
    | some _ => .error 20
    | none => .error 2
  ReadFile p :=
    match lookupNode tab p with
    | some (.file content) => .ok content
    | some (.dir _) => .error 21
    | some .locked => .error 13
    | none => .error 2
  Getwd := .ok wd
  tables := allPrintable

/-- The directory `/r` holding `.hidden.go` with content `"p\nq"` and `a.go` with content
`"x\ny\nz"`. -/
def hiddenWorld : World :=
  tableWorld [47, 114]
    [([47, 114], .dir [[46, 104, 105, 100, 100, 101, 110, 46, 103, 111], [97, 46, 103, 111]]),
     ([47, 114, 47, 46, 104, 105, 100, 100, 101, 110, 46, 103, 111], .file [112, 10, 113]),
     ([47, 114, 47, 97, 46, 103, 111], .file [120, 10, 121, 10, 122])]

/-- No path list, no extension filter, no excludes, depth 0. -/
def plainConfig : Config := ⟨[], [], [], 0⟩

/-- The directory `/w` holding the zero-byte file `b.dat`, the file `c.bin` of three
control bytes, the file `k.txt` with the two Cyrillic letters U+0430 U+0431, the file
`l.go` that cannot be read, and the file `m.go` with content `"x\n"`. -/
def mixedWorld : World :=
  tableWorld [47, 119]
    [([47, 119], .dir [[98, 46, 100, 97, 116], [99, 46, 98, 105, 110], [107, 46, 116, 120, 116],
        [108, 46, 103, 111], [109, 46, 103, 111]]),
     ([47, 119, 47, 98, 46, 100, 97, 116], .file []),
     ([47, 119, 47, 99, 46, 98, 105, 110], .file [0, 1, 2]),
     ([47, 119, 47, 107, 46, 116, 120, 116], .file [0xD0, 0xB0, 0xD0, 0xB1]),
     ([47, 119, 47, 108, 46, 103, 111], .locked),
     ([47, 119, 47, 109, 46, 103, 111], .file [120, 10])]

/-- The flag `--paths /w/b.dat`. -/
def datConfig : Config := ⟨[[47, 119, 47, 98, 46, 100, 97, 116]], [], [], 0⟩

/-- The root `/r` holding the file `t.md` and the directories `x` and `y`; `x` holds
`f.txt` with content `"a\nb"`, `y` holds `g.go` with content `"c"`. -/
def treeWorld : World :=
  tableWorld [47, 114]
    [([47, 114], .dir [[116, 46, 109, 100], [120], [121]]),
     ([47, 114, 47, 116, 46, 109, 100], .file [35, 10]),
     ([47, 114, 47, 120], .dir [[102, 46, 116, 120, 116]]),
     ([47, 114, 47, 121], .dir [[103, 46, 103, 111]]),
     ([47, 114, 47, 120, 47, 102, 46, 116, 120, 116], .file [97, 10, 98]),
     ([47, 114, 47, 121, 47, 103, 46, 103, 111], .file [99])]

/-- The flags `--paths /r --tree 1`. -/
def treeConfig : Config := ⟨[[47, 114]], [], [], 1⟩

/-- The directory `d` holding `a.go` and `b.txt`, both text. -/
def extWorld : World :=
  tableWorld [47]
    [([100], .dir [[97, 46, 103, 111], [98, 46, 116, 120, 116]]),
     ([100, 47, 97, 46, 103, 111], .file [120, 10]),
     ([100, 47, 98, 46, 116, 120, 116], .file [121, 10])]

/-- The flags `--paths d --ext .go`. -/
def extConfig : Config := ⟨[[100]], [46, 103, 111], [], 0⟩

/-! ## The `tree` flag -/

/-- The action of the `tree` flag, lines 70 to 77: a value above 255 stores 255, a positive
value is stored as `uint8(treeval)`, its low eight bits, any other value stores nothing. -/
def treeAction (cfg : Config) (treeval : Int) : Config :=
  if treeval > 255 then ⟨cfg.paths, cfg.ext, cfg.excludes, 255⟩
  else if treeval > 0 then ⟨cfg.paths, cfg.ext, cfg.excludes, treeval.toNat % 256⟩
  else cfg

/-- Lines 95 to 98 of `mainAction`: `tdeep := int(tree)`, one more when `tree > 0`. -/
def tdeepOf (tree : Nat) : Int :=
  if tree > 0 then (tree : Int) + 1 else (tree : Int)

/-- The configuration before any flag action has run. -/
def initialConfig : Config := ⟨[], [], [], 0⟩

/-- The file `/t` with content `"abcd"` followed by a NUL byte. -/
def thresholdWorld : World :=
  tableWorld [47] [([47, 116], .file [97, 98, 99, 100, 0])]

/-! ## The index without the second look at a directory entry -/

/-- The inner loop of `mkindex` in the variant where an entry that is a directory is only
recursed into: after the recursion the loop goes on to the next entry, the exclusion,
extension and text checks are made for the other entries only. -/
def mkindexEntriesRecurseOnly (w : World) (cfg : Config)
    (self : List GoString → Outcome (List GoString)) (p : GoString) :
    List GoString → List GoString → Outcome (List GoString)
  | [], findex => .ok findex
  | e :: es, findex =>
    if HasPrefix e [DOT] then mkindexEntriesRecurseOnly w cfg self p es findex
    else
      match w.Stat (Join [p, e]) with
      | .error err => .error err
      | .ok isDir =>
        if isDir then
          if isNeedExcludePath cfg (Join [p, e]) then
            mkindexEntriesRecurseOnly w cfg self p es findex
          else
            match self [Join [p, e]] with
            | .error err => .error err
            | .timeout => .timeout
            | .ok fi => mkindexEntriesRecurseOnly w cfg self p es (findex ++ fi)
        else mkindexEntriesRecurseOnly w cfg self p es (appendEntry w cfg (Join [p, e]) findex)

/-- The outer loop of the variant. -/
def mkindexPathsRecurseOnly (w : World) (cfg : Config)
    (self : List GoString → Outcome (List GoString)) :
    List GoString → List GoString → Outcome (List GoString)
  | [], findex => .ok findex
  | p :: ps, findex =>
    match w.Stat p with
    | .error err => .error err
    | .ok isDir =>
      if !isDir then
        if isNeedExcludePath cfg p || isNeedFilterByExt cfg p then
          mkindexPathsRecurseOnly w cfg self ps findex
        else mkindexPathsRecurseOnly w cfg self ps (findex ++ [p])
      else if isNeedExcludePath cfg p then mkindexPathsRecurseOnly w cfg self ps findex
      else
        match w.ReadDir p with
        | .error err => .error err
        | .ok es =>
          match mkindexEntriesRecurseOnly w cfg self p es findex with
          | .error err => .error err
          | .timeout => .timeout
          | .ok findex1 => mkindexPathsRecurseOnly w cfg self ps findex1

/-- The variant of `mkindex` in which a directory entry is recursed into and not tested
afterwards. -/
def mkindexRecurseOnly (w : World) (cfg : Config) :
    Nat → List GoString → Outcome (List GoString)
  | 0, _ => .timeout
  | fuel + 1, paths =>
    mkindexPathsRecurseOnly w cfg (fun ps => mkindexRecurseOnly w cfg fuel ps) paths []

/-! ## The nodes a walk reports on -/

/-- The nodes located exactly `n` levels below `t` (`t` itself for `n = 0`), depth first,
children from left to right. -/
def nodesAt : Nat → ptree → List ptree
  | 0, t => [t]
  | n + 1, t => t.nodes.flatMap (nodesAt n)

/-- A node with a non-empty path list and a non-empty `currpath`. -/
def reportable (t : ptree) : Bool :=
  decide (t.paths.length > 0) && decide (t.currpath ≠ [])

/-- Attempt the report of each node in turn: `printtree` on the node's `currpath` and
`paths`; the first attempt that fails prints the error and ends the sequence. -/
def attempts (w : World) (cfg : Config) (fuel : Nat) : List ptree → List Event × Outcome Unit
  | [] => ([], .ok ())
  | t :: rest =>
    match printtree w cfg fuel t.currpath t.paths with
    | .error err => ([Event.errorLine err], .error err)
    | .timeout => ([], .timeout)
    | .ok evs => (evs ++ (attempts w cfg fuel rest).1, (attempts w cfg fuel rest).2)

/-- A tree that `mktree` does not build: the root `/r` with the child `/r/x`, which has
the child `/r/y` in turn; each node lists one file of `treeWorld`. -/
def chainTree : ptree :=
  .mk [[47, 114, 47, 116, 46, 109, 100]]
    [.mk [[47, 114, 47, 120, 47, 102, 46, 116, 120, 116]]
      [.mk [[47, 114, 47, 121, 47, 103, 46, 103, 111]] [] [47, 114, 47, 121]]
      [47, 114, 47, 120]]
    [47, 114]

/-! ## The program with a log of its calls -/

/-- A call that the log records: `os.Stat`, `os.ReadDir`, `os.Getwd`, and a recursive call
of `mktree` with its depth argument. -/
inductive Call where
  | stat (p : GoString)
  | readDir (p : GoString)
  | getwd
  | mktree (tdeep : Int)
  deriving DecidableEq

/-- The error a logged call returns in the world `w`, nothing when it succeeds. -/
def Call.failure (w : World) : Call → Option OsError
  | .stat p =>
    match w.Stat p with
    | .error e => some e
    | .ok _ => none
  | .readDir p =>
    match w.ReadDir p with
    | .error e => some e
    | .ok _ => none
  | .getwd =>
    match w.Getwd with
    | .error e => some e
    | .ok _ => none
  | .mktree _ => none

/-- A result together with the calls made to reach it, in order. -/
abbrev Logged (α : Type) := List Call × Outcome α

/-- The calls `log` were made first, then `x` ran. -/
def after {α : Type} (log : List Call) (x : Logged α) : Logged α :=
  (log ++ x.1, x.2)

/-- No call of the log failed. -/
def AllOk (w : World) (log : List Call) : Prop :=
  ∀ c ∈ log, c.failure w = none

/-- Either no logged call failed and the result is not an error, or the log ends with the
one call that failed and the result is the error of that call. -/
def FailFast {α : Type} (w : World) (x : Logged α) : Prop :=
  (AllOk w x.1 ∧ ∀ e, x.2 ≠ .error e) ∨
    ∃ pre c e, x.1 = pre ++ [c] ∧ AllOk w pre ∧ c.failure w = some e ∧ x.2 = .error e

/-- The inner loop of `mkindex` with the log of its `os.Stat` and `os.ReadDir` calls. -/
def mkindexEntriesL (w : World) (cfg : Config)
    (self : List GoString → Logged (List GoString)) (p : GoString) :
    List GoString → List GoString → Logged (List GoString)
  | [], findex => ([], .ok findex)
  | e :: es, findex =>
    if HasPrefix e [DOT] then mkindexEntriesL w cfg self p es findex
    else
      match w.Stat (Join [p, e]) with
      | .error err => ([Call.stat (Join [p, e])], .error err)
      | .ok isDir =>
        if isDir then
          if isNeedExcludePath cfg (Join [p, e]) then
            after [Call.stat (Join [p, e])] (mkindexEntriesL w cfg self p es findex)
          else
            match self [Join [p, e]] with
            | (log, .error err) => (Call.stat (Join [p, e]) :: log, .error err)
            | (log, .timeout) => (Call.stat (Join [p, e]) :: log, .timeout)
            | (log, .ok fi) =>
              after (Call.stat (Join [p, e]) :: log)
                (mkindexEntriesL w cfg self p es (appendEntry w cfg (Join [p, e]) (findex ++ fi)))
        else
          after [Call.stat (Join [p, e])]
            (mkindexEntriesL w cfg self p es (appendEntry w cfg (Join [p, e]) findex))

/-- The outer loop of `mkindex` with the log of its calls. -/
def mkindexPathsL (w : World) (cfg : Config)
    (self : List GoString → Logged (List GoString)) :
    List GoString → List GoString → Logged (List GoString)
  | [], findex => ([], .ok findex)
  | p :: ps, findex =>
    match w.Stat p with
    | .error err => ([Call.stat p], .error err)
    | .ok isDir =>
      if !isDir then
        if isNeedExcludePath cfg p || isNeedFilterByExt cfg p then
          after [Call.stat p] (mkindexPathsL w cfg self ps findex)
        else after [Call.stat p] (mkindexPathsL w cfg self ps (findex ++ [p]))
      else if isNeedExcludePath cfg p then
        after [Call.stat p] (mkindexPathsL w cfg self ps findex)
      else
        match w.ReadDir p with
        | .error err => ([Call.stat p, Call.readDir p], .error err)
        | .ok es =>
          match mkindexEntriesL w cfg self p es findex with
          | (log, .error err) => (Call.stat p :: Call.readDir p :: log, .error err)
          | (log, .timeout) => (Call.stat p :: Call.readDir p :: log, .timeout)
          | (log, .ok findex1) =>
            after (Call.stat p :: Call.readDir p :: log) (mkindexPathsL w cfg self ps findex1)

/-- Function `mkindex` with the log of its `os.Stat` and `os.ReadDir` calls, those of the
recursive calls included. -/
def mkindexL (w : World) (cfg : Config) : Nat → List GoString → Logged (List GoString)
  | 0, _ => ([], .timeout)
  | fuel + 1, paths => mkindexPathsL w cfg (fun ps => mkindexL w cfg fuel ps) paths []

/-- The calls one round of the `mktree` loop makes before it looks at the path: the
`os.Getwd` for the literal `"."`. -/
def resolveLog (p0 : GoString) : List Call :=
  if p0 = [DOT] then [Call.getwd] else []

/-- The loop of `mktree` with the log of its `os.Getwd`, `os.Stat` and `os.ReadDir` calls
and of its recursive calls. -/
def mktreeLoopL (w : World) (cfg : Config) (self : ptree → List GoString → Logged ptree)
    (tdeep : Int) : List GoString → ptree → Logged ptree
  | [], tree => ([], .ok tree)
  | p0 :: rest, tree =>
    match (if p0 = [DOT] then w.Getwd else .ok p0) with
    | .error err => (resolveLog p0, .error err)
    | .ok p =>
      if !isNeedExcludePath cfg p then
        match w.Stat p with
        | .error err => (resolveLog p0 ++ [Call.stat p], .error err)
        | .ok isDir =>
          if isDir && tdeep != 0 then
            match w.ReadDir p with
            | .error err => (resolveLog p0 ++ [Call.stat p, Call.readDir p], .error err)
            | .ok es =>
              match self (.mk [] [] p) (es.map (fun e => Join [p, e])) with
              | (log, .error err) =>
                (resolveLog p0 ++ [Call.stat p, Call.readDir p, Call.mktree (tdeep - 1)] ++ log,
                  .error err)
              | (log, .timeout) =>
                (resolveLog p0 ++ [Call.stat p, Call.readDir p, Call.mktree (tdeep - 1)] ++ log,
                  .timeout)
              | (log, .ok t) =>
                after
                  (resolveLog p0 ++ [Call.stat p, Call.readDir p, Call.mktree (tdeep - 1)] ++ log)
                  (mktreeLoopL w cfg self tdeep rest
                    (.mk (tree.paths ++ [p]) (tree.nodes ++ [t]) tree.currpath))
          else
            after (resolveLog p0 ++ [Call.stat p])
              (mktreeLoopL w cfg self tdeep rest
                (.mk (tree.paths ++ [p]) tree.nodes tree.currpath))
      else after (resolveLog p0) (mktreeLoopL w cfg self tdeep rest tree)

/-- Function `mktree` with the log of its calls, those of the recursive calls included. -/
def mktreeL (w : World) (cfg : Config) : Nat → ptree → List GoString → Int → Logged ptree
  | 0, _, _, _ => ([], .timeout)
  | fuel + 1, tree, paths, tdeep =>
    if tdeep = -1 then ([], .ok tree)
    else mktreeLoopL w cfg (fun t ps => mktreeL w cfg fuel t ps (tdeep - 1)) tdeep paths tree

mutual
/-- The number of levels of nodes below a node: 0 for a node without children. -/
def levels : ptree → Nat
  | .mk _ ns _ => levelsList ns
/-- The number of levels of a list of nodes: 0 for the empty list. -/
def levelsList : List ptree → Nat
  | [] => 0
  | t :: ts => max (levels t + 1) (levelsList ts)
end

/-- The root `/r` with the directories `a`, `x` and `y`: `a` holds `h.go`, `y` holds `g.go`,
and `x` holds `f.txt` and the directory `s`, whose listing names an entry `ghost` that does
not exist. -/
def brokenWorld : World :=
  tableWorld [47, 114]
    [([47, 114], .dir [[97], [120], [121]]),
     ([47, 114, 47, 97], .dir [[104, 46, 103, 111]]),
     ([47, 114, 47, 97, 47, 104, 46, 103, 111], .file [49]),
     ([47, 114, 47, 120], .dir [[102, 46, 116, 120, 116], [115]]),
     ([47, 114, 47, 120, 47, 102, 46, 116, 120, 116], .file [97, 10, 98]),
     ([47, 114, 47, 120, 47, 115], .dir [[103, 104, 111, 115, 116]]),
     ([47, 114, 47, 121], .dir [[103, 46, 103, 111]]),
     ([47, 114, 47, 121, 47, 103, 46, 103, 111], .file [99])]

/-- The working directory `/p.go`, a directory holding the file `a.txt`. -/
def goWorld : World :=
  tableWorld [47, 112, 46, 103, 111]
    [([47, 112, 46, 103, 111], .dir [[97, 46, 116, 120, 116]]),
     ([47, 112, 46, 103, 111, 47, 97, 46, 116, 120, 116], .file [120, 10])]

/-- The flags `--paths . --excludes .go`. -/
def goConfig : Config := ⟨[[46]], [], [[46, 103, 111]], 0⟩

/-- The flag `--paths ..`. -/
def parentConfig : Config := ⟨[[46, 46]], [], [], 0⟩

/-! ## The index as a list -/

/-- The names a directory lists, none when the listing fails. -/
def namesOf (w : World) (p : GoString) : List GoString :=
  match w.ReadDir p with
  | .ok es => es
  | .error _ => []

/-- What one entry `ep` of a listed directory adds to the index: nothing when it is
excluded; otherwise the index `sub ep` of the entry alone when it is a directory, followed
by the entry itself, once, when it passes the extension filter and text detection. -/
def entryIndex (w : World) (cfg : Config) (sub : GoString → List GoString) (ep : GoString) :
    List GoString :=
  if isNeedExcludePath cfg ep then []
  else
    (if isDirectory w ep then sub ep else []) ++
      (if !isNeedFilterByExt cfg ep && isTextFile w ep then [ep] else [])

/-- What one listed path `p` adds to the index: a non-directory adds itself, once, when it
is neither excluded nor filtered by extension; a directory that is not excluded adds, for
each entry of its listing whose name does not start with a dot, in order, what that entry
adds. -/
def pathIndex (w : World) (cfg : Config) (sub : GoString → List GoString) (p : GoString) :
    List GoString :=
  if isDirectory w p then
    if isNeedExcludePath cfg p then []
    else
      ((namesOf w p).filter (fun e => !HasPrefix e [DOT])).flatMap
        (fun e => entryIndex w cfg sub (Join [p, e]))
  else if isNeedExcludePath cfg p || isNeedFilterByExt cfg p then []
  else [p]

/-- The index of `paths` as a list: what each listed path adds, in order; the index of a
directory entry alone is the same list one level down. `fuel` bounds the depth. -/
def expectedIndex (w : World) (cfg : Config) : Nat → List GoString → List GoString
  | 0, _ => []
  | fuel + 1, paths =>
    paths.flatMap (pathIndex w cfg (fun ep => expectedIndex w cfg fuel [ep]))

/-- The flags `--paths /r --paths /r/x`: a directory and one of its subdirectories. -/
def overlapConfig : Config := ⟨[[47, 114], [47, 114, 47, 120]], [], [], 0⟩

/-- The directory `/h` holding the hidden directory `.d`, which holds the text file
`c.txt`. -/
def nestedHiddenWorld : World :=
  tableWorld [47, 104]
    [([47, 104], .dir [[46, 100]]),
     ([47, 104, 47, 46, 100], .dir [[99, 46, 116, 120, 116]]),
     ([47, 104, 47, 46, 100, 47, 99, 46, 116, 120, 116], .file [120, 10])]

/-! ## Lemmas on strings -/

theorem Split_ne_nil (s : GoString) (sep : Nat) : Split s sep ≠ [] := by
  induction s with
  | nil => simp [Split]
  | cons c rest ih =>
    unfold Split
    split_ifs
    · simp
    · cases h : Split rest sep with
      | nil => exact absurd h ih
      | cons seg segs => simp

theorem Split_length (s : GoString) (sep : Nat) :
    (Split s sep).length = s.count sep + 1 := by
  induction s with
  | nil => simp [Split]
  | cons c rest ih =>
    unfold Split
    by_cases hc : c = sep
    · subst hc
      simp [ih]
    · have hne : (c == sep) = false := by simpa using hc
      rw [if_neg hc, List.count_cons, hne]
      cases h : Split rest sep with
      | nil => exact absurd h (Split_ne_nil rest sep)
      | cons seg segs =>
        rw [h] at ih
        simpa using ih

theorem Split_append_sep (g : GoString) (sep : Nat) :
    ∃ init, init ≠ [] ∧ Split (g ++ [sep]) sep = init ++ [[]] := by
  induction g with
  | nil => exact ⟨[[]], by simp, by simp [Split]⟩
  | cons c rest ih =>
    obtain ⟨init, hne, hsplit⟩ := ih
    rw [List.cons_append]
    unfold Split
    by_cases hc : c = sep
    · rw [if_pos hc, hsplit]
      exact ⟨[] :: init, by simp, by simp⟩
    · rw [if_neg hc, hsplit]
      cases init with
      | nil => exact absurd rfl hne
      | cons seg segs => exact ⟨(c :: seg) :: segs, by simp, by simp⟩

theorem HasPrefix_singleton (s : GoString) (d : Nat) :
    HasPrefix s [d] = true ↔ ∃ rest, s = d :: rest := by
  cases s with
  | nil => simp [HasPrefix]
  | cons c t =>
    unfold HasPrefix
    cases t <;> simp [HasPrefix]

/-! ## Line counting -/

/-- C1: for a readable file whose content holds K line feeds `countFileLines` returns K+1
without error; a zero-byte file gives 1, and a content ending in a line feed has an empty
last segment that is counted. -/
theorem countFileLines_eq_count_succ (w : World) (path f : GoString)
    (hread : w.ReadFile path = .ok f) :
    countFileLines w path = .ok (f.count LF + 1) ∧
    (f = [] → countFileLines w path = .ok 1) ∧
    (∀ g, f = g ++ [LF] →
      (Split f LF).getLast? = some [] ∧ countFileLines w path = .ok (g.count LF + 2)) := by
  have hmain : countFileLines w path = .ok (f.count LF + 1) := by
    unfold countFileLines
    rw [hread]
    simp [Split_length]
  refine ⟨hmain, ?_, ?_⟩
  · intro hf
    rw [hmain, hf]
    rfl
  · intro g hg
    constructor
    · obtain ⟨init, _, hsplit⟩ := Split_append_sep g LF
      rw [hg, hsplit]
      simp
    · rw [hmain, hg]
      simp

/-- C1 at `/r/a.go` of `hiddenWorld`, content `"x\ny\nz"`. -/
theorem countFileLines_eq_count_succ_witness :
    hiddenWorld.ReadFile [47, 114, 47, 97, 46, 103, 111] = .ok [120, 10, 121, 10, 122] ∧
    countFileLines hiddenWorld [47, 114, 47, 97, 46, 103, 111] = .ok 3 :=
  ⟨rfl,
   (countFileLines_eq_count_succ hiddenWorld [47, 114, 47, 97, 46, 103, 111]
      [120, 10, 121, 10, 122] rfl).1⟩

/-! ## Exclusion -/

/-- C4: `isNeedExcludePath` holds exactly when the base name starts with a dot, or the
base name is in the exclude list, or the extension is in the exclude list; a base name
starting with a dot is excluded whatever the exclude list is. -/
theorem isNeedExcludePath_iff (cfg : Config) (path : GoString) :
    (isNeedExcludePath cfg path = true ↔
      (∃ rest, Base path = DOT :: rest) ∨ Base path ∈ cfg.excludes ∨
        Ext path ∈ cfg.excludes) ∧
    ((∃ rest, Base path = DOT :: rest) →
      ∀ ps e xs t, isNeedExcludePath ⟨ps, e, xs, t⟩ path = true) := by
  constructor
  · unfold isNeedExcludePath
    simp [HasPrefix_singleton, or_assoc]
  · intro h ps e xs t
    unfold isNeedExcludePath
    simp [HasPrefix_singleton, h]

/-- C4 at `/r/.hidden.go` with the empty exclude list. -/
theorem isNeedExcludePath_iff_witness :
    isNeedExcludePath plainConfig [47, 114, 47, 46, 104, 105, 100, 100, 101, 110, 46, 103, 111]
      = true :=
  (isNeedExcludePath_iff plainConfig
      [47, 114, 47, 46, 104, 105, 100, 100, 101, 110, 46, 103, 111]).2
    ⟨[104, 105, 100, 100, 101, 110, 46, 103, 111], by decide⟩ [] [] [] 0

/-! ## Text detection -/

theorem ratioAboveThreshold_zero (n : Nat) : ratioAboveThreshold 0 n = false := by
  simp [ratioAboveThreshold]

theorem ratioAboveThreshold_self (n : Nat) (hn : 0 < n) : ratioAboveThreshold n n = true := by
  simp only [ratioAboveThreshold, decide_eq_true_eq]
  have h : (14411518807585589 : Nat) < 2 ^ 54 := by norm_num
  calc 14411518807585589 * n < 2 ^ 54 * n := Nat.mul_lt_mul_of_pos_right h hn
    _ = n * 2 ^ 54 := Nat.mul_comm _ _

theorem DecodeRune_ascii (b : Nat) (t : List Nat) (hb : b < 0x80) :
    DecodeRune (b :: t) = (b, 1) := by
  simp [DecodeRune, hb]

theorem runesFrom_ascii (f : List Nat) (hf : ∀ b ∈ f, b < 0x80) : runesFrom 0 f = f := by
  induction f with
  | nil => rfl
  | cons b t ih =>
    have hb : b < 0x80 := hf b (List.mem_cons_self b t)
    have ht : ∀ c ∈ t, c < 0x80 := fun c hc => hf c (List.mem_cons_of_mem b hc)
    simp [runesFrom, DecodeRune_ascii b t hb, ih ht]

theorem validFrom_ascii (f : List Nat) (hf : ∀ b ∈ f, b < 0x80) : validFrom 0 f = true := by
  induction f with
  | nil => rfl
  | cons b t ih =>
    have hb : b < 0x80 := hf b (List.mem_cons_self b t)
    have ht : ∀ c ∈ t, c < 0x80 := fun c hc => hf c (List.mem_cons_of_mem b hc)
    have hne : b ≠ 0xFFFD := by omega
    simp [validFrom, validFront, DecodeRune_ascii b t hb, ih ht, hne]

/-- C5: `isTextFile` answers false for a zero-byte file, for a file none of whose decoded
characters is printable or white space (whether or not its bytes are valid UTF-8), and for
a file that cannot be read. -/
theorem isTextFile_false_of_no_printable (w : World) (path : GoString) :
    (w.ReadFile path = .ok [] → isTextFile w path = false) ∧
    (∀ f, w.ReadFile path = .ok f →
      (utf8Valid f = true →
        ∀ r ∈ rangeRunes f, IsPrint w.tables r = false ∧ IsSpace w.tables r = false) →
      isTextFile w path = false) ∧
    (∀ e, w.ReadFile path = .error e → isTextFile w path = false) := by
  refine ⟨?_, ?_, ?_⟩
  · intro h
    simp [isTextFile, h]
  · intro f hread hnp
    unfold isTextFile
    rw [hread]
    by_cases hlen : f.length = 0
    · simp [hlen]
    · by_cases hv : utf8Valid f = true
      · have hcount : (rangeRunes f).countP
            (fun r => IsPrint w.tables r || IsSpace w.tables r) = 0 := by
          rw [List.countP_eq_zero]
          intro r hr
          have := hnp hv r hr
          simp [this.1, this.2]
        simp [hlen, hv, hcount, ratioAboveThreshold_zero]
      · simp [hlen, hv]
  · intro e h
    simp [isTextFile, h]

/-- C6: `isTextFile` answers true for every readable, non-empty file made of printable
ASCII bytes (0x20 to 0x7E) and ASCII white space (tab, line feed, vertical tab, form feed,
carriage return). -/
theorem isTextFile_of_ascii (w : World) (path f : GoString)
    (hread : w.ReadFile path = .ok f) (hne : f ≠ [])
    (hascii : ∀ b ∈ f, (0x20 ≤ b ∧ b ≤ 0x7E) ∨ b = 0x09 ∨ b = 0x0A ∨ b = 0x0B ∨ b = 0x0C ∨
      b = 0x0D) :
    isTextFile w path = true := by
  have hlt : ∀ b ∈ f, b < 0x80 := by
    intro b hb
    rcases hascii b hb with h | h | h | h | h | h <;> omega
  have hlen : 0 < f.length := List.length_pos.mpr hne
  have hcount : (rangeRunes f).countP
      (fun r => IsPrint w.tables r || IsSpace w.tables r) = f.length := by
    unfold rangeRunes
    rw [runesFrom_ascii f hlt, List.countP_eq_length]
    intro b hb
    rcases hascii b hb with h | h | h | h | h | h
    · have h1 : b ≤ 0xFF := by omega
      simp [IsPrint, h1, h.1, h.2]
    all_goals (subst h; simp [IsSpace])
  unfold isTextFile
  rw [hread]
  have hv : utf8Valid f = true := validFrom_ascii f hlt
  simp [Nat.ne_of_gt hlen, hv, hcount, ratioAboveThreshold_self f.length hlen]

/-- C6 at `/r/a.go` of `hiddenWorld`, content `"x\ny\nz"`. -/
theorem isTextFile_of_ascii_witness :
    isTextFile hiddenWorld [47, 114, 47, 97, 46, 103, 111] = true :=
  isTextFile_of_ascii hiddenWorld [47, 114, 47, 97, 46, 103, 111] [120, 10, 121, 10, 122] rfl
    (by decide) (by decide)

/-- C5 at `/w/c.bin` of `mixedWorld`, three control bytes. -/
theorem isTextFile_false_of_no_printable_witness :
    isTextFile mixedWorld [47, 119, 47, 99, 46, 98, 105, 110] = false :=
  (isTextFile_false_of_no_printable mixedWorld [47, 119, 47, 99, 46, 98, 105, 110]).2.1
    [0, 1, 2] rfl (by decide)

/-- C7: the file `/w/k.txt` of `mixedWorld` is valid UTF-8 and holds two Cyrillic letters,
both printable, yet `isTextFile` answers false: two printable characters are divided by
four bytes. -/
theorem isTextFile_cyrillic_false :
    mixedWorld.ReadFile [47, 119, 47, 107, 46, 116, 120, 116] = .ok [0xD0, 0xB0, 0xD0, 0xB1] ∧
    utf8Valid [0xD0, 0xB0, 0xD0, 0xB1] = true ∧
    rangeRunes [0xD0, 0xB0, 0xD0, 0xB1] = [0x430, 0x431] ∧
    (∀ r ∈ rangeRunes [0xD0, 0xB0, 0xD0, 0xB1], IsPrint mixedWorld.tables r = true) ∧
    isTextFile mixedWorld [47, 119, 47, 107, 46, 116, 120, 116] = false :=
  ⟨rfl, by decide, by decide, by decide, by decide⟩

/-! ## Aggregation -/

theorem mapGet_mapAdd (m : Agg) (k e : GoString) (v : Nat) :
    mapGet (mapAdd m k v) e = if k = e then mapGet m e + v else mapGet m e := by
  induction m with
  | nil => by_cases h : k = e <;> simp [mapAdd, mapGet, h]
  | cons kv m ih =>
    obtain ⟨k1, v1⟩ := kv
    by_cases h1 : k1 = k
    · subst h1
      by_cases h : k1 = e <;> simp [mapAdd, mapGet, h]
    · by_cases h : k = e
      · subst h
        simp [mapAdd, mapGet, h1, ih]
      · by_cases h2 : k1 = e
        · subst h2
          simp [mapAdd, mapGet, h1, h]
        · simp [mapAdd, mapGet, h1, h, h2, ih]

theorem mapHas_mapAdd (m : Agg) (k e : GoString) (v : Nat) :
    mapHas (mapAdd m k v) e = true ↔ k = e ∨ mapHas m e = true := by
  induction m with
  | nil => by_cases h : k = e <;> simp [mapAdd, mapHas, h]
  | cons kv m ih =>
    obtain ⟨k1, v1⟩ := kv
    by_cases h1 : k1 = k
    · subst h1
      by_cases h : k1 = e <;> simp [mapAdd, mapHas, h]
    · by_cases h2 : k1 = e
      · subst h2
        simp [mapAdd, mapHas, h1]
      · simp [mapAdd, mapHas, h1, h2, ih]

theorem countLoop_get (w : World) (findex : List GoString) (res : Agg) (e : GoString) :
    mapGet (countLoop w findex res) e =
      mapGet res e +
        ((findex.filter (fun p => rextOf p = e)).filterMap (readableLines w)).sum := by
  induction findex generalizing res with
  | nil => simp [countLoop]
  | cons p rest ih =>
    unfold countLoop
    cases hp : countFileLines w p with
    | error err =>
      simp only [ih]
      by_cases he : rextOf p = e <;> simp [List.filter_cons, he, readableLines, hp]
    | ok n =>
      simp only [ih, mapGet_mapAdd]
      by_cases he : rextOf p = e
      · simp [List.filter_cons, he, readableLines, hp, Nat.add_assoc]
      · simp [List.filter_cons, he]

theorem countLoop_has (w : World) (findex : List GoString) (res : Agg) (e : GoString) :
    mapHas (countLoop w findex res) e = true ↔
      mapHas res e = true ∨ ∃ p ∈ findex, rextOf p = e ∧ ∃ n, countFileLines w p = .ok n := by
  induction findex generalizing res with
  | nil => simp [countLoop]
  | cons p rest ih =>
    unfold countLoop
    cases hp : countFileLines w p with
    | error err =>
      simp only [ih]
      simp [hp]
    | ok n =>
      simp only [ih, mapHas_mapAdd]
      simp only [List.mem_cons, exists_eq_or_imp, hp]
      constructor
      · rintro ((h | h) | h)
        · exact Or.inr (Or.inl ⟨h, n, rfl⟩)
        · exact Or.inl h
        · exact Or.inr (Or.inr h)
      · rintro (h | ⟨h, _⟩ | h)
        · exact Or.inl (Or.inr h)
        · exact Or.inl (Or.inl h)
        · exact Or.inr h

/-- C10: `count` never fails, and a file of the index that cannot be read is skipped: the
total of an extension is the sum of the line counts of the readable files with that
extension, and an extension has an entry only if one of its files is readable. -/
theorem count_skips_unreadable (w : World) (findex : List GoString) :
    (count w findex).2 = none ∧
    ∀ e, mapGet (count w findex).1 e =
          ((findex.filter (fun p => rextOf p = e)).filterMap (readableLines w)).sum ∧
        (mapHas (count w findex).1 e = true ↔
          ∃ p ∈ findex, rextOf p = e ∧ ∃ n, countFileLines w p = .ok n) := by
  refine ⟨rfl, fun e => ⟨?_, ?_⟩⟩
  · simp [count, countLoop_get, mapGet]
  · simp [count, countLoop_has, mapHas]

/-- C10 at the unreadable `/w/l.go` and the readable `/w/m.go` of `mixedWorld`: the total
of `.go` is the two lines of `m.go`. -/
theorem count_skips_unreadable_witness :
    countFileLines mixedWorld [47, 119, 47, 108, 46, 103, 111] = .error 13 ∧
    count mixedWorld [[47, 119, 47, 108, 46, 103, 111], [47, 119, 47, 109, 46, 103, 111]] =
      ([([46, 103, 111], 2)], none) ∧
    mapGet (count mixedWorld
      [[47, 119, 47, 108, 46, 103, 111], [47, 119, 47, 109, 46, 103, 111]]).1 [46, 103, 111] =
      (([[47, 119, 47, 108, 46, 103, 111], [47, 119, 47, 109, 46, 103, 111]].filter
        (fun p => rextOf p = [46, 103, 111])).filterMap (readableLines mixedWorld)).sum :=
  ⟨rfl, by decide,
   ((count_skips_unreadable mixedWorld
      [[47, 119, 47, 108, 46, 103, 111], [47, 119, 47, 109, 46, 103, 111]]).2 [46, 103, 111]).1⟩

/-! ## The file index -/

theorem appendEntry_mem (w : World) (cfg : Config) (ep q : GoString) (findex : List GoString)
    (hq : q ∈ appendEntry w cfg ep findex) :
    q ∈ findex ∨ (q = ep ∧ isNeedExcludePath cfg ep = false ∧
      isNeedFilterByExt cfg ep = false ∧ isTextFile w ep = true) := by
  unfold appendEntry at hq
  by_cases h1 : (isNeedExcludePath cfg ep || isNeedFilterByExt cfg ep) = true
  · rw [if_pos h1] at hq
    exact Or.inl hq
  · rw [if_neg h1] at hq
    by_cases h2 : (!isTextFile w ep) = true
    · rw [if_pos h2] at hq
      exact Or.inl hq
    · rw [if_neg h2] at hq
      rcases List.mem_append.mp hq with h | h
      · exact Or.inl h
      · right
        simp only [Bool.or_eq_true, not_or, Bool.not_eq_true] at h1
        simp only [Bool.not_eq_true', Bool.not_eq_false] at h2
        exact ⟨by simpa using h, h1.1, h1.2, h2⟩

theorem mem_appendEntry_of_mem (w : World) (cfg : Config) (ep q : GoString)
    (findex : List GoString) (hq : q ∈ findex) : q ∈ appendEntry w cfg ep findex := by
  unfold appendEntry
  split_ifs
  · exact hq
  · exact hq
  · exact List.mem_append_left _ hq

theorem self_mem_appendEntry (w : World) (cfg : Config) (ep : GoString)
    (findex : List GoString) (h1 : isNeedExcludePath cfg ep = false)
    (h2 : isNeedFilterByExt cfg ep = false) (h3 : isTextFile w ep = true) :
    ep ∈ appendEntry w cfg ep findex := by
  simp [appendEntry, h1, h2, h3]

theorem mkindexEntries_inv (w : World) (cfg : Config)
    (self : List GoString → Outcome (List GoString)) (p : GoString) (P : GoString → Prop)
    (all : List GoString)
    (hself : ∀ e idx, e ∈ all → HasPrefix e [DOT] = false → w.Stat (Join [p, e]) = .ok true →
      isNeedExcludePath cfg (Join [p, e]) = false → self [Join [p, e]] = .ok idx → ∀ q ∈ idx, P q)
    (hentry : ∀ e, e ∈ all → HasPrefix e [DOT] = false →
      isNeedExcludePath cfg (Join [p, e]) = false → isNeedFilterByExt cfg (Join [p, e]) = false →
      isTextFile w (Join [p, e]) = true → P (Join [p, e])) :
    ∀ es findex idx, (∀ e ∈ es, e ∈ all) → (∀ q ∈ findex, P q) →
      mkindexEntries w cfg self p es findex = .ok idx → ∀ q ∈ idx, P q := by
  intro es
  induction es with
  | nil =>
    intro findex idx _ hfi h
    simp only [mkindexEntries, Outcome.ok.injEq] at h
    subst h
    exact hfi
  | cons e es ih =>
    intro findex idx hall hfi h
    have hes : ∀ e1 ∈ es, e1 ∈ all := fun e1 h1 => hall e1 (List.mem_cons_of_mem e h1)
    have he : e ∈ all := hall e (List.mem_cons_self e es)
    unfold mkindexEntries at h
    by_cases hdot : HasPrefix e [DOT] = true
    · rw [if_pos hdot] at h
      exact ih findex idx hes hfi h
    · rw [if_neg hdot] at h
      have hdot1 : HasPrefix e [DOT] = false := by simpa using hdot
      have hstep : ∀ fi, (∀ q ∈ fi, P q) → ∀ q ∈ appendEntry w cfg (Join [p, e]) fi, P q := by
        intro fi hP q hq
        rcases appendEntry_mem w cfg (Join [p, e]) q fi hq with h1 | ⟨h1, h2, h3, h4⟩
        · exact hP q h1
        · rw [h1]
          exact hentry e he hdot1 h2 h3 h4
      cases hst : w.Stat (Join [p, e]) with
      | error err => simp [hst] at h
      | ok isDir =>
        simp only [hst] at h
        cases isDir with
        | false =>
          simp only [Bool.false_eq_true, if_false] at h
          exact ih _ idx hes (hstep findex hfi) h
        | true =>
          simp only [if_true] at h
          by_cases hex : isNeedExcludePath cfg (Join [p, e]) = true
          · rw [if_pos hex] at h
            exact ih findex idx hes hfi h
          · rw [if_neg hex] at h
            have hex1 : isNeedExcludePath cfg (Join [p, e]) = false := by simpa using hex
            cases hrec : self [Join [p, e]] with
            | error err => simp [hrec] at h
            | timeout => simp [hrec] at h
            | ok fi =>
              simp only [hrec] at h
              refine ih _ idx hes (hstep _ ?_) h
              intro q hq
              rcases List.mem_append.mp hq with hq | hq
              · exact hfi q hq
              · exact hself e fi he hdot1 hst hex1 hrec q hq

theorem mkindexPaths_inv (w : World) (cfg : Config)
    (self : List GoString → Outcome (List GoString)) (P : GoString → Prop)
    (all : List GoString)
    (htop : ∀ p ∈ all, w.Stat p = .ok false → isNeedExcludePath cfg p = false →
      isNeedFilterByExt cfg p = false → P p)
    (hentry : ∀ p es e, p ∈ all → OpenDir w cfg p es → e ∈ es → HasPrefix e [DOT] = false →
      isNeedExcludePath cfg (Join [p, e]) = false → isNeedFilterByExt cfg (Join [p, e]) = false →
      isTextFile w (Join [p, e]) = true → P (Join [p, e]))
    (hself : ∀ p es e idx, p ∈ all → OpenDir w cfg p es → e ∈ es →
      HasPrefix e [DOT] = false → w.Stat (Join [p, e]) = .ok true →
      isNeedExcludePath cfg (Join [p, e]) = false → self [Join [p, e]] = .ok idx → ∀ q ∈ idx, P q) :
    ∀ ps findex idx, (∀ p ∈ ps, p ∈ all) → (∀ q ∈ findex, P q) →
      mkindexPaths w cfg self ps findex = .ok idx → ∀ q ∈ idx, P q := by
  intro ps
  induction ps with
  | nil =>
    intro findex idx _ hfi h
    simp only [mkindexPaths, Outcome.ok.injEq] at h
    subst h
    exact hfi
  | cons p ps ih =>
    intro findex idx hall hfi h
    have hps : ∀ p1 ∈ ps, p1 ∈ all := fun p1 h1 => hall p1 (List.mem_cons_of_mem p h1)
    have hp : p ∈ all := hall p (List.mem_cons_self p ps)
    unfold mkindexPaths at h
    cases hst : w.Stat p with
    | error err => simp [hst] at h
    | ok isDir =>
      simp only [hst] at h
      cases isDir with
      | false =>
        simp only [Bool.not_false, if_true] at h
        by_cases hex : (isNeedExcludePath cfg p || isNeedFilterByExt cfg p) = true
        · rw [if_pos hex] at h
          exact ih findex idx hps hfi h
        · rw [if_neg hex] at h
          simp only [Bool.or_eq_true, not_or, Bool.not_eq_true] at hex
          refine ih _ idx hps ?_ h
          intro q hq
          rcases List.mem_append.mp hq with hq | hq
          · exact hfi q hq
          · have hqp : q = p := by simpa using hq
            rw [hqp]
            exact htop p hp hst hex.1 hex.2
      | true =>
        simp only [Bool.not_true, Bool.false_eq_true, if_false] at h
        by_cases hex : isNeedExcludePath cfg p = true
        · rw [if_pos hex] at h
          exact ih findex idx hps hfi h
        · rw [if_neg hex] at h
          have hex1 : isNeedExcludePath cfg p = false := by simpa using hex
          cases hrd : w.ReadDir p with
          | error err => simp [hrd] at h
          | ok es =>
            simp only [hrd] at h
            have hopen : OpenDir w cfg p es := ⟨hst, hex1, hrd⟩
            cases hes : mkindexEntries w cfg self p es findex with
            | error err => simp [hes] at h
            | timeout => simp [hes] at h
            | ok findex1 =>
              simp only [hes] at h
              exact ih findex1 idx hps
                (mkindexEntries_inv w cfg self p P es
                  (fun e fi he hd hs hx hr => hself p es e fi hp hopen he hd hs hx hr)
                  (fun e he hd h1 h2 h3 => hentry p es e hp hopen he hd h1 h2 h3)
                  es findex findex1 (fun e he => he) hfi hes) h

theorem mkindex_sound (w : World) (cfg : Config) :
    ∀ fuel paths idx, mkindex w cfg fuel paths = .ok idx → ∀ q ∈ idx, Listed w cfg paths q := by
  intro fuel
  induction fuel with
  | zero =>
    intro paths idx h
    simp [mkindex] at h
  | succ fuel ih =>
    intro paths idx h
    unfold mkindex at h
    refine mkindexPaths_inv w cfg _ (Listed w cfg paths) paths ?_ ?_ ?_ paths [] idx
      (fun p hp => hp) (by simp) h
    · intro p hp hst h1 h2
      exact Listed.direct paths p hp hst h1 h2
    · intro p es e hp hopen he hd h1 h2 h3
      exact Listed.entry paths p es e hp hopen he hd h1 h2 h3
    · intro p es e fi hp hopen he hd hs hx hrec q hq
      exact Listed.sub paths p es e q hp hopen he hd hs hx (ih [Join [p, e]] fi hrec q hq)

theorem indexed_of_listed (w : World) (cfg : Config) (paths : List GoString) (q : GoString)
    (h : Listed w cfg paths q) : Indexed w cfg paths q := by
  induction h with
  | direct paths p hp hst h1 h2 => exact ⟨h1, h2, Or.inl ⟨hp, hst⟩⟩
  | entry paths p es e hp hopen he hd h1 h2 h3 => exact ⟨h1, h2, Or.inr h3⟩
  | sub paths p es e q hp hopen he hd hs hx hl ih =>
    obtain ⟨h1, h2, h3⟩ := ih
    refine ⟨h1, h2, Or.inr ?_⟩
    rcases h3 with ⟨hmem, hfile⟩ | h3
    · have hqe : q = Join [p, e] := by simpa using hmem
      rw [hqe, hs] at hfile
      simp at hfile
    · exact h3

theorem mkindex_indexed (w : World) (cfg : Config) (fuel : Nat) (paths idx : List GoString)
    (h : mkindex w cfg fuel paths = .ok idx) : ∀ q ∈ idx, Indexed w cfg paths q :=
  fun q hq => indexed_of_listed w cfg paths q (mkindex_sound w cfg fuel paths idx h q hq)

theorem mkindexEntries_complete (w : World) (cfg : Config)
    (self : List GoString → Outcome (List GoString)) (p : GoString) :
    ∀ es findex idx, mkindexEntries w cfg self p es findex = .ok idx →
      (∀ q ∈ findex, q ∈ idx) ∧
      ∀ e ∈ es, HasPrefix e [DOT] = false →
        (isNeedExcludePath cfg (Join [p, e]) = false → isNeedFilterByExt cfg (Join [p, e]) = false →
          isTextFile w (Join [p, e]) = true → Join [p, e] ∈ idx) ∧
        (w.Stat (Join [p, e]) = .ok true → isNeedExcludePath cfg (Join [p, e]) = false →
          ∃ fi, self [Join [p, e]] = .ok fi ∧ ∀ q ∈ fi, q ∈ idx) := by
  intro es
  induction es with
  | nil =>
    intro findex idx h
    simp only [mkindexEntries, Outcome.ok.injEq] at h
    subst h
    exact ⟨fun q hq => hq, fun e he => by simp at he⟩
  | cons e es ih =>
    intro findex idx h
    unfold mkindexEntries at h
    by_cases hdot : HasPrefix e [DOT] = true
    · rw [if_pos hdot] at h
      obtain ⟨hm, hc⟩ := ih findex idx h
      refine ⟨hm, ?_⟩
      intro e1 he1 hd1
      rcases List.mem_cons.mp he1 with heq | hmem
      · rw [heq, hdot] at hd1
        exact Bool.noConfusion hd1
      · exact hc e1 hmem hd1
    · rw [if_neg hdot] at h
      cases hst : w.Stat (Join [p, e]) with
      | error err => simp [hst] at h
      | ok isDir =>
        simp only [hst] at h
        cases isDir with
        | false =>
          simp only [Bool.false_eq_true, if_false] at h
          obtain ⟨hm, hc⟩ := ih _ idx h
          refine ⟨fun q hq => hm q (mem_appendEntry_of_mem w cfg _ q findex hq), ?_⟩
          intro e1 he1 hd1
          rcases List.mem_cons.mp he1 with heq | hmem
          · subst heq
            refine ⟨fun h1 h2 h3 => hm _ (self_mem_appendEntry w cfg _ findex h1 h2 h3), ?_⟩
            intro hs
            rw [hst] at hs
            simp at hs
          · exact hc e1 hmem hd1
        | true =>
          simp only [if_true] at h
          by_cases hex : isNeedExcludePath cfg (Join [p, e]) = true
          · rw [if_pos hex] at h
            obtain ⟨hm, hc⟩ := ih findex idx h
            refine ⟨hm, ?_⟩
            intro e1 he1 hd1
            rcases List.mem_cons.mp he1 with heq | hmem
            · subst heq
              refine ⟨fun h1 => ?_, fun _ h1 => ?_⟩ <;>
              · rw [hex] at h1
                exact Bool.noConfusion h1
            · exact hc e1 hmem hd1
          · rw [if_neg hex] at h
            cases hrec : self [Join [p, e]] with
            | error err => simp [hrec] at h
            | timeout => simp [hrec] at h
            | ok fi =>
              simp only [hrec] at h
              obtain ⟨hm, hc⟩ := ih _ idx h
              have hsub : ∀ q ∈ findex ++ fi, q ∈ idx :=
                fun q hq => hm q (mem_appendEntry_of_mem w cfg _ q _ hq)
              refine ⟨fun q hq => hsub q (List.mem_append_left _ hq), ?_⟩
              intro e1 he1 hd1
              rcases List.mem_cons.mp he1 with heq | hmem
              · subst heq
                refine ⟨fun h1 h2 h3 => hm _ (self_mem_appendEntry w cfg _ _ h1 h2 h3), ?_⟩
                intro _ _
                exact ⟨fi, hrec, fun q hq => hsub q (List.mem_append_right _ hq)⟩
              · exact hc e1 hmem hd1

theorem mkindexPaths_complete (w : World) (cfg : Config)
    (self : List GoString → Outcome (List GoString)) :
    ∀ ps findex idx, mkindexPaths w cfg self ps findex = .ok idx →
      (∀ q ∈ findex, q ∈ idx) ∧
      ∀ p ∈ ps,
        (w.Stat p = .ok false → isNeedExcludePath cfg p = false →
          isNeedFilterByExt cfg p = false → p ∈ idx) ∧
        (∀ es, OpenDir w cfg p es →
          ∃ f0 f1, mkindexEntries w cfg self p es f0 = .ok f1 ∧ ∀ q ∈ f1, q ∈ idx) := by
  intro ps
  induction ps with
  | nil =>
    intro findex idx h
    simp only [mkindexPaths, Outcome.ok.injEq] at h
    subst h
    exact ⟨fun q hq => hq, fun p hp => by simp at hp⟩
  | cons p ps ih =>
    intro findex idx h
    unfold mkindexPaths at h
    cases hst : w.Stat p with
    | error err => simp [hst] at h
    | ok isDir =>
      simp only [hst] at h
      cases isDir with
      | false =>
        simp only [Bool.not_false, if_true] at h
        have hnotdir : ∀ es, ¬ OpenDir w cfg p es := by
          intro es ho
          have := ho.1
          rw [hst] at this
          simp at this
        by_cases hex : (isNeedExcludePath cfg p || isNeedFilterByExt cfg p) = true
        · rw [if_pos hex] at h
          obtain ⟨hm, hc⟩ := ih findex idx h
          refine ⟨hm, ?_⟩
          intro p1 hp1
          rcases List.mem_cons.mp hp1 with heq | hmem
          · subst heq
            refine ⟨fun _ h1 h2 => ?_, fun es ho => absurd ho (hnotdir es)⟩
            rw [h1, h2] at hex
            exact Bool.noConfusion hex
          · exact hc p1 hmem
        · rw [if_neg hex] at h
          obtain ⟨hm, hc⟩ := ih _ idx h
          refine ⟨fun q hq => hm q (List.mem_append_left _ hq), ?_⟩
          intro p1 hp1
          rcases List.mem_cons.mp hp1 with heq | hmem
          · subst heq
            exact ⟨fun _ _ _ => hm _ (List.mem_append_right _ (List.mem_singleton_self _)),
              fun es ho => absurd ho (hnotdir es)⟩
          · exact hc p1 hmem
      | true =>
        simp only [Bool.not_true, Bool.false_eq_true, if_false] at h
        have hnotfile : ¬ w.Stat p = .ok false := by
          rw [hst]
          simp
        by_cases hex : isNeedExcludePath cfg p = true
        · rw [if_pos hex] at h
          obtain ⟨hm, hc⟩ := ih findex idx h
          refine ⟨hm, ?_⟩
          intro p1 hp1
          rcases List.mem_cons.mp hp1 with heq | hmem
          · subst heq
            refine ⟨fun hs => absurd hs hnotfile, fun es ho => ?_⟩
            have := ho.2.1
            rw [hex] at this
            exact Bool.noConfusion this
          · exact hc p1 hmem
        · rw [if_neg hex] at h
          cases hrd : w.ReadDir p with
          | error err => simp [hrd] at h
          | ok es =>
            simp only [hrd] at h
            cases hes : mkindexEntries w cfg self p es findex with
            | error err => simp [hes] at h
            | timeout => simp [hes] at h
            | ok findex1 =>
              simp only [hes] at h
              obtain ⟨hm, hc⟩ := ih findex1 idx h
              obtain ⟨hm1, _⟩ := mkindexEntries_complete w cfg self p es findex findex1 hes
              refine ⟨fun q hq => hm q (hm1 q hq), ?_⟩
              intro p1 hp1
              rcases List.mem_cons.mp hp1 with heq | hmem
              · subst heq
                refine ⟨fun hs => absurd hs hnotfile, fun es1 ho => ?_⟩
                have hes1 : es1 = es := by
                  have := ho.2.2
                  rw [hrd] at this
                  injection this with this
                  exact this.symm
                rw [hes1]
                exact ⟨findex, findex1, hes, hm⟩
              · exact hc p1 hmem

theorem mkindex_complete (w : World) (cfg : Config) (paths : List GoString) (q : GoString)
    (hl : Listed w cfg paths q) :
    ∀ fuel idx, mkindex w cfg fuel paths = .ok idx → q ∈ idx := by
  induction hl with
  | direct paths p hp hst h1 h2 =>
    intro fuel idx h
    cases fuel with
    | zero => simp [mkindex] at h
    | succ fuel =>
      unfold mkindex at h
      exact ((mkindexPaths_complete w cfg _ paths [] idx h).2 p hp).1 hst h1 h2
  | entry paths p es e hp hopen he hd h1 h2 h3 =>
    intro fuel idx h
    cases fuel with
    | zero => simp [mkindex] at h
    | succ fuel =>
      unfold mkindex at h
      obtain ⟨f0, f1, hent, hsub⟩ := ((mkindexPaths_complete w cfg _ paths [] idx h).2 p hp).2 es hopen
      exact hsub _ (((mkindexEntries_complete w cfg _ p es f0 f1 hent).2 e he hd).1 h1 h2 h3)
  | sub paths p es e q hp hopen he hd hs hx hl ih =>
    intro fuel idx h
    cases fuel with
    | zero => simp [mkindex] at h
    | succ fuel =>
      unfold mkindex at h
      obtain ⟨f0, f1, hent, hsub⟩ := ((mkindexPaths_complete w cfg _ paths [] idx h).2 p hp).2 es hopen
      obtain ⟨fi, hrec, hfi⟩ := ((mkindexEntries_complete w cfg _ p es f0 f1 hent).2 e he hd).2 hs hx
      exact hsub q (hfi q (ih fuel fi hrec))

/-! ## The tree and the walk -/

theorem resolve_of_ok (w : World) (p0 p : GoString)
    (h : (if p0 = [DOT] then w.Getwd else .ok p0) = .ok p) : p = resolve w p0 := by
  unfold resolve
  by_cases hp : p0 = [DOT]
  · rw [if_pos hp] at h
    rw [if_pos hp, h]
  · rw [if_neg hp] at h
    rw [if_neg hp]
    injection h with h
    exact h.symm

theorem visible_cons (w : World) (cfg : Config) (p0 : GoString) (ps : List GoString) :
    visible w cfg (p0 :: ps) =
      (if isNeedExcludePath cfg (resolve w p0) = true then [] else [resolve w p0]) ++
        visible w cfg ps := by
  unfold visible
  by_cases h : isNeedExcludePath cfg (resolve w p0) = true
  · simp [List.filter_cons, h]
  · simp [List.filter_cons, h]

theorem not_excluded_ne_nil (cfg : Config) (p : GoString)
    (h : isNeedExcludePath cfg p = false) : p ≠ [] := by
  intro hp
  subst hp
  have : isNeedExcludePath cfg [] = true := by
    simp [isNeedExcludePath, Base, HasPrefix]
  rw [this] at h
  exact Bool.noConfusion h

theorem dirsBelow_flatMap (w : World) (cfg : Config) (fuel m : Nat) (ps : List GoString) :
    (dirsBelow w cfg m ps).flatMap (reportOf w cfg fuel) =
      ((visible w cfg ps).filter (isDirectory w)).flatMap (nodeEvents w cfg fuel m) := by
  cases m with
  | zero =>
    have h : nodeEvents w cfg fuel 0 = reportOf w cfg fuel := by
      funext d
      rfl
    rw [h]
    rfl
  | succ m =>
    have h : nodeEvents w cfg fuel (m + 1) =
        fun d => (dirsBelow w cfg m (children w d)).flatMap (reportOf w cfg fuel) := by
      funext d
      rfl
    rw [h]
    simp [dirsBelow, List.flatMap_assoc]

theorem ptree_eta (t : ptree) : ptree.mk t.paths t.nodes t.currpath = t := by
  cases t
  rfl

theorem mktreeLoop_zero (w : World) (cfg : Config)
    (self : ptree → List GoString → Outcome ptree) :
    ∀ ps tree tree1, mktreeLoop w cfg self 0 ps tree = .ok tree1 →
      tree1 = .mk (tree.paths ++ visible w cfg ps) tree.nodes tree.currpath := by
  intro ps
  induction ps with
  | nil =>
    intro tree tree1 h
    simp only [mktreeLoop, Outcome.ok.injEq] at h
    subst h
    simp [visible, ptree_eta]
  | cons p0 rest ih =>
    intro tree tree1 h
    unfold mktreeLoop at h
    cases hres : (if p0 = [DOT] then w.Getwd else Except.ok p0) with
    | error err => simp [hres] at h
    | ok p =>
      have hp := resolve_of_ok w p0 p hres
      simp only [hres] at h
      rw [visible_cons, ← hp]
      cases hex : isNeedExcludePath cfg p with
      | true =>
        simp only [hex, Bool.not_true, Bool.false_eq_true, if_false] at h
        simpa using ih tree tree1 h
      | false =>
        simp only [hex, Bool.not_false, if_true] at h
        cases hst : w.Stat p with
        | error err => simp [hst] at h
        | ok isDir =>
          simp only [hst, bne_self_eq_false, Bool.and_false, Bool.false_eq_true, if_false] at h
          have := ih _ tree1 h
          simpa [ptree.paths, ptree.nodes, ptree.currpath] using this

theorem walkNodes_cons_ok (w : World) (cfg : Config) (wf : Nat) (t : ptree) (ns : List ptree)
    (d : Int) (evs : List Event) (h : walkNodes w cfg wf (t :: ns) d = (evs, .ok ())) :
    ∃ e1 e2, walk w cfg wf t d = (e1, .ok ()) ∧ walkNodes w cfg wf ns d = (e2, .ok ()) ∧
      evs = e1 ++ e2 := by
  unfold walkNodes at h
  cases h1 : walk w cfg wf t d with
  | mk e1 s1 =>
    rw [h1] at h
    cases s1 with
    | error err => simp at h
    | timeout => simp at h
    | ok a =>
      simp only [Prod.mk.injEq] at h
      refine ⟨e1, (walkNodes w cfg wf ns d).1, rfl, ?_, h.1.symm⟩
      rw [← h.2]

theorem mktreeLoop_succ (w : World) (cfg : Config) (wf m : Nat)
    (self : ptree → List GoString → Outcome ptree)
    (hself : ∀ d t, isNeedExcludePath cfg d = false →
      self (.mk [] [] d) (children w d) = .ok t →
      ∀ evs, walk w cfg wf t (m : Int) = (evs, .ok ()) → evs = nodeEvents w cfg wf m d) :
    ∀ ps tree tree1, mktreeLoop w cfg self ((m : Int) + 1) ps tree = .ok tree1 →
      ∃ newn, tree1 = .mk (tree.paths ++ visible w cfg ps) (tree.nodes ++ newn) tree.currpath ∧
        ∀ evs, walkNodes w cfg wf newn (m : Int) = (evs, .ok ()) →
          evs = ((visible w cfg ps).filter (isDirectory w)).flatMap (nodeEvents w cfg wf m) := by
  intro ps
  induction ps with
  | nil =>
    intro tree tree1 h
    simp only [mktreeLoop, Outcome.ok.injEq] at h
    subst h
    refine ⟨[], by simp [visible, ptree_eta], ?_⟩
    intro evs hw
    simp only [walkNodes, Prod.mk.injEq] at hw
    simp [visible, ← hw.1]
  | cons p0 rest ih =>
    intro tree tree1 h
    unfold mktreeLoop at h
    cases hres : (if p0 = [DOT] then w.Getwd else Except.ok p0) with
    | error err => simp [hres] at h
    | ok p =>
      have hp := resolve_of_ok w p0 p hres
      simp only [hres] at h
      rw [visible_cons, ← hp]
      cases hex : isNeedExcludePath cfg p with
      | true =>
        simp only [hex, Bool.not_true, Bool.false_eq_true, if_false] at h
        simpa using ih tree tree1 h
      | false =>
        simp only [hex, Bool.not_false, if_true] at h
        have hm : ((m : Int) + 1 != 0) = true := by
          simp only [bne_iff_ne, ne_eq]
          omega
        cases hst : w.Stat p with
        | error err => simp [hst] at h
        | ok isDir =>
          simp only [hst, hm, Bool.and_true] at h
          cases isDir with
          | false =>
            simp only [Bool.false_eq_true, if_false] at h
            obtain ⟨newn, h1, h2⟩ := ih _ tree1 h
            refine ⟨newn, ?_, ?_⟩
            · simpa [ptree.paths, ptree.nodes, ptree.currpath] using h1
            · intro evs hw
              have hnd : isDirectory w p = false := by simp [isDirectory, hst]
              simpa [List.filter_cons, hnd] using h2 evs hw
          | true =>
            simp only [if_true] at h
            cases hrd : w.ReadDir p with
            | error err => simp [hrd] at h
            | ok es =>
              simp only [hrd] at h
              have hch : children w p = es.map (fun e => Join [p, e]) := by
                simp [children, hrd]
              rw [← hch] at h
              cases hrec : self (.mk [] [] p) (children w p) with
              | error err => simp [hrec] at h
              | timeout => simp [hrec] at h
              | ok t =>
                simp only [hrec] at h
                obtain ⟨newn, h1, h2⟩ := ih _ tree1 h
                refine ⟨t :: newn, ?_, ?_⟩
                · simpa [ptree.paths, ptree.nodes, ptree.currpath] using h1
                · intro evs hw
                  obtain ⟨e1, e2, hw1, hw2, hev⟩ := walkNodes_cons_ok w cfg wf t newn m evs hw
                  have hd : isDirectory w p = true := by simp [isDirectory, hst]
                  rw [hev, hself p t hex hrec e1 hw1, h2 e2 hw2]
                  simp [List.filter_cons, hd]

theorem mktree_zero_eq (w : World) (cfg : Config) (fuel : Nat) (tree : ptree)
    (ps : List GoString) :
    mktree w cfg (fuel + 1) tree ps 0 =
      mktreeLoop w cfg (fun t qs => mktree w cfg fuel t qs (-1)) 0 ps tree := by
  rw [mktree]
  simp

theorem mktree_succ_eq (w : World) (cfg : Config) (fuel m : Nat) (tree : ptree)
    (ps : List GoString) :
    mktree w cfg (fuel + 1) tree ps ((m : Int) + 1) =
      mktreeLoop w cfg (fun t qs => mktree w cfg fuel t qs (m : Int)) ((m : Int) + 1) ps tree := by
  rw [mktree]
  have h : ¬ ((m : Int) + 1 = -1) := by omega
  rw [if_neg h]
  simp

theorem printtree_nil (w : World) (cfg : Config) (wf : Nat) (d : GoString) :
    (match printtree w cfg wf d [] with
      | .ok evs => evs
      | _ => []) = [] := by
  cases wf with
  | zero => simp [printtree, mkindex]
  | succ n => simp [printtree, mkindex, mkindexPaths]

theorem walk_leaf (w : World) (cfg : Config) (wf : Nat) (ps : List GoString) (d : GoString)
    (evs : List Event) (hd : d ≠ [])
    (h : walk w cfg wf (.mk ps [] d) 0 = (evs, .ok ())) :
    evs = (match printtree w cfg wf d ps with
      | .ok e => e
      | _ => []) := by
  rw [walk] at h
  by_cases hps : ps.length > 0
  · have hc : (0 : Int) = 0 ∧ ps.length > 0 ∧ d ≠ [] := ⟨rfl, hps, hd⟩
    rw [if_pos hc] at h
    cases hp : printtree w cfg wf d ps with
    | error err => simp [hp] at h
    | timeout => simp [hp] at h
    | ok e =>
      simp only [hp, List.length_nil, if_true, Prod.mk.injEq] at h
      exact h.1.symm
  · have hc : ¬ ((0 : Int) = 0 ∧ ps.length > 0 ∧ d ≠ []) := fun hc => hps hc.2.1
    rw [if_neg hc] at h
    simp only [List.length_nil, if_true, Prod.mk.injEq] at h
    have hnil : ps = [] := by
      cases ps with
      | nil => rfl
      | cons a b => simp at hps
    rw [hnil, printtree_nil]
    exact h.1.symm

theorem walk_inner (w : World) (cfg : Config) (wf m : Nat) (ps : List GoString)
    (ns : List ptree) (d : GoString) :
    walk w cfg wf (.mk ps ns d) ((m : Int) + 1) = walkNodes w cfg wf ns (m : Int) := by
  rw [walk]
  have hc : ¬ ((m : Int) + 1 = 0 ∧ ps.length > 0 ∧ d ≠ []) := by
    intro hc
    omega
  rw [if_neg hc]
  cases ns with
  | nil => simp [walkNodes]
  | cons n ns =>
    have hpos : (m : Int) + 1 > 0 := by omega
    simp [hpos]

theorem mktree_node (w : World) (cfg : Config) (wf : Nat) :
    ∀ (m fuel : Nat) (d : GoString) (t : ptree), isNeedExcludePath cfg d = false →
      mktree w cfg fuel (.mk [] [] d) (children w d) (m : Int) = .ok t →
      ∀ evs, walk w cfg wf t (m : Int) = (evs, .ok ()) → evs = nodeEvents w cfg wf m d := by
  intro m
  induction m with
  | zero =>
    intro fuel d t hex h evs hw
    cases fuel with
    | zero => simp [mktree] at h
    | succ fuel =>
      have h0 : ((0 : Nat) : Int) = 0 := rfl
      rw [h0] at h hw
      rw [mktree_zero_eq] at h
      have ht := mktreeLoop_zero w cfg _ _ _ _ h
      simp only [ptree.paths, ptree.nodes, ptree.currpath, List.nil_append] at ht
      rw [ht] at hw
      have := walk_leaf w cfg wf _ d evs (not_excluded_ne_nil cfg d hex) hw
      rw [this]
      rfl
  | succ m ih =>
    intro fuel d t hex h evs hw
    cases fuel with
    | zero => simp [mktree] at h
    | succ fuel =>
      have h1 : ((m + 1 : Nat) : Int) = (m : Int) + 1 := by push_cast; rfl
      rw [h1] at h hw
      rw [mktree_succ_eq] at h
      obtain ⟨newn, ht, hn⟩ := mktreeLoop_succ w cfg wf m _
        (fun d1 t1 hex1 hrec => ih fuel d1 t1 hex1 hrec) _ _ _ h
      simp only [ptree.paths, ptree.nodes, ptree.currpath, List.nil_append] at ht
      rw [ht, walk_inner] at hw
      rw [hn evs hw]
      show _ = (dirsBelow w cfg m (children w d)).flatMap (reportOf w cfg wf)
      rw [dirsBelow_flatMap]

theorem reportOf_shape (w : World) (cfg : Config) (fuel : Nat) (d : GoString) :
    reportOf w cfg fuel d = [] ∨
      ∃ idx, idx ≠ [] ∧ mkindex w cfg fuel (visible w cfg (children w d)) = .ok idx ∧
        reportOf w cfg fuel d =
          [Event.report d idx.length (printedRows cfg (count w idx).1)] := by
  unfold reportOf printtree
  cases hidx : mkindex w cfg fuel (visible w cfg (children w d)) with
  | error err => simp
  | timeout => simp
  | ok idx =>
    by_cases hlen : idx.length = 0
    · simp [hlen]
    · right
      refine ⟨idx, ?_, rfl, ?_⟩
      · intro hnil
        rw [hnil] at hlen
        exact hlen rfl
      · simp [hlen, count]

/-! ## Runs -/

/-- C8: with tree depth N > 0 a successful run prints, in order, the reports of the
directories located N levels below the root paths and then `done!`, nothing for the roots
or for a directory at another depth; the report of a directory is empty when its index is
empty and otherwise one report labelled with the directory's own path, built from the
index of that directory's own entries. -/
theorem mainAction_tree_reports (w : World) (cfg : Config) (fuel : Nat) (evs : List Event)
    (htree : 0 < cfg.tree) (hrun : mainAction w cfg fuel = (evs, .ok ())) :
    evs = (dirsBelow w cfg cfg.tree (roots w cfg)).flatMap (reportOf w cfg fuel) ++
        [Event.done] ∧
    ∀ d, reportOf w cfg fuel d = [] ∨
      ∃ idx, idx ≠ [] ∧ mkindex w cfg fuel (visible w cfg (children w d)) = .ok idx ∧
        reportOf w cfg fuel d =
          [Event.report d idx.length (printedRows cfg (count w idx).1)] := by
  refine ⟨?_, reportOf_shape w cfg fuel⟩
  unfold mainAction at hrun
  cases hwd : w.Getwd with
  | error err => simp [hwd] at hrun
  | ok currpath =>
    have hroots : (if cfg.paths.length = 0 then [currpath] else cfg.paths) = roots w cfg := by
      simp [roots, hwd]
    have hne : cfg.tree ≠ 0 := Nat.ne_of_gt htree
    simp only [hwd, hroots, if_pos htree, if_neg hne] at hrun
    cases fuel with
    | zero => simp [mktree] at hrun
    | succ fuel =>
      rw [mktree_succ_eq] at hrun
      cases hloop : mktreeLoop w cfg (fun t qs => mktree w cfg fuel t qs (cfg.tree : Int))
          ((cfg.tree : Int) + 1) (roots w cfg) (.mk [] [] []) with
      | error err => simp [hloop] at hrun
      | timeout => simp [hloop] at hrun
      | ok t1 =>
        obtain ⟨newn, ht, hn⟩ := mktreeLoop_succ w cfg (fuel + 1) cfg.tree _
          (fun d1 t hex1 hrec => mktree_node w cfg (fuel + 1) cfg.tree fuel d1 t hex1 hrec)
          _ _ _ hloop
        simp only [ptree.paths, ptree.nodes, ptree.currpath, List.nil_append] at ht
        simp only [hloop, ht, walk_inner] at hrun
        cases hwalk : walkNodes w cfg (fuel + 1) newn (cfg.tree : Int) with
        | mk e s =>
          rw [hwalk] at hrun
          cases s with
          | error err => simp at hrun
          | timeout => simp at hrun
          | ok a =>
            simp only [Prod.mk.injEq, and_true] at hrun
            rw [← hrun, hn e hwalk, dirsBelow_flatMap]

/-- C8 at `--tree 1` over `/r` of `treeWorld`: two reports, one for `/r/x` and one for
`/r/y`, none for `/r`. -/
theorem mainAction_tree_reports_witness :
    mainAction treeWorld treeConfig 3 =
      ([Event.report [47, 114, 47, 120] 1 [([46, 116, 120, 116], 2)],
        Event.report [47, 114, 47, 121] 1 [([46, 103, 111], 1)], Event.done], .ok ()) ∧
    [Event.report [47, 114, 47, 120] 1 [([46, 116, 120, 116], 2)],
        Event.report [47, 114, 47, 121] 1 [([46, 103, 111], 1)], Event.done] =
      (dirsBelow treeWorld treeConfig 1 (roots treeWorld treeConfig)).flatMap
        (reportOf treeWorld treeConfig 3) ++ [Event.done] ∧
    dirsBelow treeWorld treeConfig 1 (roots treeWorld treeConfig) =
      [[47, 114, 47, 120], [47, 114, 47, 121]] :=
  ⟨by decide, (mainAction_tree_reports treeWorld treeConfig 3 _ (by decide) (by decide)).1,
   by decide⟩

theorem walk_leaf_cases (w : World) (cfg : Config) (wf : Nat) (ps : List GoString)
    (d : GoString) (evs : List Event) (h : walk w cfg wf (.mk ps [] d) 0 = (evs, .ok ())) :
    evs = [] ∨ printtree w cfg wf d ps = .ok evs := by
  rw [walk] at h
  by_cases hc : (0 : Int) = 0 ∧ ps.length > 0 ∧ d ≠ []
  · rw [if_pos hc] at h
    cases hp : printtree w cfg wf d ps with
    | error err => simp [hp] at h
    | timeout => simp [hp] at h
    | ok e =>
      simp only [hp, List.length_nil, if_true, Prod.mk.injEq] at h
      right
      rw [h.1]
  · rw [if_neg hc] at h
    simp only [List.length_nil, if_true, Prod.mk.injEq] at h
    exact Or.inl h.1.symm

theorem not_hidden_of_indexed (w : World) (cfg : Config) (all : List GoString) (q : GoString)
    (h : Indexed w cfg all q) : HasPrefix (Base q) [DOT] = false := by
  have h1 := h.1
  unfold isNeedExcludePath at h1
  simp only [Bool.or_eq_false_iff] at h1
  exact h1.1.1

/-- C9: with tree depth 0 a successful run prints at most one report before `done!`; the
report is labelled with the working directory, is built from the one index of all root
paths that are not excluded, and no path of that index has a base name starting with a
dot. This holds whatever the extension filter and the exclude list are, in particular
without them. -/
theorem mainAction_depth_zero (w : World) (cfg : Config) (fuel : Nat) (evs : List Event)
    (htree : cfg.tree = 0) (hrun : mainAction w cfg fuel = (evs, .ok ())) :
    evs = [Event.done] ∨
      ∃ wd idx, w.Getwd = .ok wd ∧
        mkindex w cfg fuel (visible w cfg (roots w cfg)) = .ok idx ∧ idx ≠ [] ∧
        evs = [Event.report wd idx.length (printedRows cfg (count w idx).1), Event.done] ∧
        ∀ q ∈ idx, HasPrefix (Base q) [DOT] = false := by
  unfold mainAction at hrun
  cases hwd : w.Getwd with
  | error err => simp [hwd] at hrun
  | ok currpath =>
    have hroots : (if cfg.paths.length = 0 then [currpath] else cfg.paths) = roots w cfg := by
      simp [roots, hwd]
    simp only [hwd, hroots, htree, Nat.lt_irrefl, if_false, if_true, Nat.cast_zero] at hrun
    cases fuel with
    | zero => simp [mktree] at hrun
    | succ fuel =>
      rw [mktree_zero_eq] at hrun
      cases hloop : mktreeLoop w cfg (fun t qs => mktree w cfg fuel t qs (-1)) 0
          (roots w cfg) (.mk [] [] currpath) with
      | error err => simp [hloop] at hrun
      | timeout => simp [hloop] at hrun
      | ok t1 =>
        have ht := mktreeLoop_zero w cfg _ _ _ _ hloop
        simp only [ptree.paths, ptree.nodes, ptree.currpath, List.nil_append] at ht
        simp only [hloop, ht] at hrun
        cases hwalk : walk w cfg (fuel + 1) (.mk (visible w cfg (roots w cfg)) [] currpath) 0 with
        | mk e s =>
          rw [hwalk] at hrun
          cases s with
          | error err => simp at hrun
          | timeout => simp at hrun
          | ok a =>
            simp only [Prod.mk.injEq, and_true] at hrun
            rcases walk_leaf_cases w cfg (fuel + 1) _ _ e hwalk with he | hp
            · left
              rw [← hrun, he]
              rfl
            · unfold printtree at hp
              cases hidx : mkindex w cfg (fuel + 1) (visible w cfg (roots w cfg)) with
              | error err => simp [hidx] at hp
              | timeout => simp [hidx] at hp
              | ok idx =>
                simp only [hidx] at hp
                by_cases hlen : idx.length = 0
                · left
                  simp only [hlen, if_true, Outcome.ok.injEq] at hp
                  rw [← hrun, ← hp]
                  rfl
                · right
                  simp only [hlen, if_false, count, Outcome.ok.injEq] at hp
                  refine ⟨currpath, idx, rfl, rfl, ?_, ?_, ?_⟩
                  · intro hnil
                    rw [hnil] at hlen
                    exact hlen rfl
                  · rw [← hrun, ← hp]
                    rfl
                  · intro q hq
                    exact not_hidden_of_indexed w cfg _ q (mkindex_indexed w cfg _ _ idx hidx q hq)

/-- C9 at the root `/r` of `hiddenWorld`, which holds `a.go` with content `"x\ny\nz"` and
`.hidden.go`: the single report is `.go 3`. -/
theorem mainAction_depth_zero_witness :
    mainAction hiddenWorld plainConfig 2 =
      ([Event.report [47, 114] 1 [([46, 103, 111], 3)], Event.done], .ok ()) ∧
    ([Event.report [47, 114] 1 [([46, 103, 111], 3)], Event.done] = [Event.done] ∨
      ∃ wd idx, hiddenWorld.Getwd = .ok wd ∧
        mkindex hiddenWorld plainConfig 2 (visible hiddenWorld plainConfig
          (roots hiddenWorld plainConfig)) = .ok idx ∧ idx ≠ [] ∧
        [Event.report [47, 114] 1 [([46, 103, 111], 3)], Event.done] =
          [Event.report wd idx.length (printedRows plainConfig (count hiddenWorld idx).1),
            Event.done] ∧
        ∀ q ∈ idx, HasPrefix (Base q) [DOT] = false) :=
  ⟨by decide, mainAction_depth_zero hiddenWorld plainConfig 2 _ rfl (by decide)⟩

/-- C3: with a non-empty extension filter every path of an index that `mkindex` returns
has the extension of the filter, wherever the path was found. -/
theorem mkindex_ext_only (w : World) (cfg : Config) (fuel : Nat) (paths idx : List GoString)
    (hext : cfg.ext ≠ []) (h : mkindex w cfg fuel paths = .ok idx) :
    ∀ q ∈ idx, Ext q = cfg.ext := by
  intro q hq
  have h2 := (mkindex_indexed w cfg fuel paths idx h q hq).2.1
  unfold isNeedFilterByExt at h2
  simpa [hext] using h2

/-- C3 at `--ext .go` over the directory `d` of `extWorld`, which holds `a.go` and
`b.txt`: the index holds `d/a.go` only. -/
theorem mkindex_ext_only_witness :
    mkindex extWorld extConfig 2 [[100]] = .ok [[100, 47, 97, 46, 103, 111]] ∧
    ∀ q ∈ [[100, 47, 97, 46, 103, 111]], Ext q = extConfig.ext :=
  ⟨by decide,
   mkindex_ext_only extWorld extConfig 2 [[100]] [[100, 47, 97, 46, 103, 111]] (by decide)
     (by decide)⟩

theorem appendEntry_eq (w : World) (cfg : Config) (ep : GoString) (findex : List GoString) :
    appendEntry w cfg ep findex =
      findex ++ (if isNeedExcludePath cfg ep then []
        else if !isNeedFilterByExt cfg ep && isTextFile w ep then [ep] else []) := by
  unfold appendEntry
  cases isNeedExcludePath cfg ep <;> cases isNeedFilterByExt cfg ep <;>
    cases isTextFile w ep <;> simp

theorem entryIndex_file (w : World) (cfg : Config) (sub : GoString → List GoString)
    (ep : GoString) (findex : List GoString) (hst : w.Stat ep = .ok false) :
    appendEntry w cfg ep findex = findex ++ entryIndex w cfg sub ep := by
  rw [appendEntry_eq]
  unfold entryIndex
  have hd : isDirectory w ep = false := by simp [isDirectory, hst]
  cases isNeedExcludePath cfg ep <;> simp [hd]

theorem entryIndex_dir (w : World) (cfg : Config) (sub : GoString → List GoString)
    (ep : GoString) (findex fi : List GoString) (hst : w.Stat ep = .ok true)
    (hex : isNeedExcludePath cfg ep = false) (hfi : fi = sub ep) :
    appendEntry w cfg ep (findex ++ fi) = findex ++ entryIndex w cfg sub ep := by
  rw [appendEntry_eq]
  unfold entryIndex
  have hd : isDirectory w ep = true := by simp [isDirectory, hst]
  simp [hd, hex, hfi]

theorem entryIndex_excluded (w : World) (cfg : Config) (sub : GoString → List GoString)
    (ep : GoString) (hex : isNeedExcludePath cfg ep = true) : entryIndex w cfg sub ep = [] := by
  simp [entryIndex, hex]

theorem mkindexEntries_exact (w : World) (cfg : Config)
    (self : List GoString → Outcome (List GoString)) (sub : GoString → List GoString)
    (p : GoString) (hself : ∀ ep fi, self [ep] = .ok fi → fi = sub ep) :
    ∀ es findex idx, mkindexEntries w cfg self p es findex = .ok idx →
      idx = findex ++ (es.filter (fun e => !HasPrefix e [DOT])).flatMap
        (fun e => entryIndex w cfg sub (Join [p, e])) := by
  intro es
  induction es with
  | nil =>
    intro findex idx h
    simp only [mkindexEntries, Outcome.ok.injEq] at h
    simp [← h]
  | cons e es ih =>
    intro findex idx h
    unfold mkindexEntries at h
    by_cases hdot : HasPrefix e [DOT] = true
    · rw [if_pos hdot] at h
      rw [ih findex idx h]
      simp [List.filter_cons, hdot]
    · rw [if_neg hdot] at h
      have hkeep : (e :: es).filter (fun e => !HasPrefix e [DOT]) =
          e :: es.filter (fun e => !HasPrefix e [DOT]) := by
        simp [List.filter_cons, hdot]
      rw [hkeep, List.flatMap_cons, ← List.append_assoc]
      cases hst : w.Stat (Join [p, e]) with
      | error err => simp [hst] at h
      | ok isDir =>
        simp only [hst] at h
        cases isDir with
        | false =>
          simp only [Bool.false_eq_true, if_false] at h
          rw [ih _ idx h, entryIndex_file w cfg sub _ findex hst]
        | true =>
          simp only [if_true] at h
          by_cases hex : isNeedExcludePath cfg (Join [p, e]) = true
          · rw [if_pos hex] at h
            rw [ih findex idx h, entryIndex_excluded w cfg sub _ hex, List.append_nil]
          · rw [if_neg hex] at h
            have hex1 : isNeedExcludePath cfg (Join [p, e]) = false := by simpa using hex
            cases hrec : self [Join [p, e]] with
            | error err => simp [hrec] at h
            | timeout => simp [hrec] at h
            | ok fi =>
              simp only [hrec] at h
              rw [ih _ idx h,
                entryIndex_dir w cfg sub _ findex fi hst hex1 (hself _ fi hrec)]

theorem mkindexPaths_exact (w : World) (cfg : Config)
    (self : List GoString → Outcome (List GoString)) (sub : GoString → List GoString)
    (hself : ∀ ep fi, self [ep] = .ok fi → fi = sub ep) :
    ∀ ps findex idx, mkindexPaths w cfg self ps findex = .ok idx →
      idx = findex ++ ps.flatMap (pathIndex w cfg sub) := by
  intro ps
  induction ps with
  | nil =>
    intro findex idx h
    simp only [mkindexPaths, Outcome.ok.injEq] at h
    simp [← h]
  | cons p ps ih =>
    intro findex idx h
    unfold mkindexPaths at h
    rw [List.flatMap_cons, ← List.append_assoc]
    cases hst : w.Stat p with
    | error err => simp [hst] at h
    | ok isDir =>
      simp only [hst] at h
      cases isDir with
      | false =>
        have hd : isDirectory w p = false := by simp [isDirectory, hst]
        simp only [Bool.not_false, if_true] at h
        by_cases hex : (isNeedExcludePath cfg p || isNeedFilterByExt cfg p) = true
        · rw [if_pos hex] at h
          rw [ih findex idx h]
          simp [pathIndex, hd, hex]
        · rw [if_neg hex] at h
          rw [ih _ idx h]
          simp [pathIndex, hd, hex]
      | true =>
        have hd : isDirectory w p = true := by simp [isDirectory, hst]
        simp only [Bool.not_true, Bool.false_eq_true, if_false] at h
        by_cases hex : isNeedExcludePath cfg p = true
        · rw [if_pos hex] at h
          rw [ih findex idx h]
          simp [pathIndex, hd, hex]
        · rw [if_neg hex] at h
          cases hrd : w.ReadDir p with
          | error err => simp [hrd] at h
          | ok es =>
            simp only [hrd] at h
            cases hes : mkindexEntries w cfg self p es findex with
            | error err => simp [hes] at h
            | timeout => simp [hes] at h
            | ok findex1 =>
              simp only [hes] at h
              rw [ih findex1 idx h, mkindexEntries_exact w cfg self sub p hself es findex findex1 hes]
              simp [pathIndex, hd, hex, namesOf, hrd]

theorem mkindex_exact (w : World) (cfg : Config) :
    ∀ fuel paths idx, mkindex w cfg fuel paths = .ok idx →
      idx = expectedIndex w cfg fuel paths := by
  intro fuel
  induction fuel with
  | zero =>
    intro paths idx h
    simp [mkindex] at h
  | succ fuel ih =>
    intro paths idx h
    unfold mkindex at h
    have := mkindexPaths_exact w cfg _ (fun ep => expectedIndex w cfg fuel [ep])
      (fun ep fi hrec => ih [ep] fi hrec) paths [] idx h
    rw [this, expectedIndex]
    simp

/-- C2, the claim as stated fails, in four ways. The zero-byte file `/w/b.dat` of
`mixedWorld` fails text detection, yet listed directly it is counted: one file, total 1
for `.dat`. The file `/r/x/f.txt` of `treeWorld` has two lines and passes both filters, yet
with `/r` and `/r/x` both listed it is indexed twice and `.txt` totals 4. The file
`d/b.txt` of `extWorld` passes both filters, yet under `--ext .go` it is not indexed. The
file `/h/.d/c.txt` of `nestedHiddenWorld` passes both filters, yet the index of `/h` is
empty, its directory being hidden. -/
theorem totals_not_sum_over_text_files :
    (isNeedExcludePath datConfig [47, 119, 47, 98, 46, 100, 97, 116] = false ∧
      isTextFile mixedWorld [47, 119, 47, 98, 46, 100, 97, 116] = false ∧
      printtree mixedWorld datConfig 1 [47, 119] [[47, 119, 47, 98, 46, 100, 97, 116]] =
        .ok [Event.report [47, 119] 1 [([46, 100, 97, 116], 1)]] ∧
      mainAction mixedWorld datConfig 1 =
        ([Event.report [47, 119] 1 [([46, 100, 97, 116], 1)], Event.done], .ok ())) ∧
    (isNeedExcludePath overlapConfig [47, 114, 47, 120, 47, 102, 46, 116, 120, 116] = false ∧
      isTextFile treeWorld [47, 114, 47, 120, 47, 102, 46, 116, 120, 116] = true ∧
      countFileLines treeWorld [47, 114, 47, 120, 47, 102, 46, 116, 120, 116] = .ok 2 ∧
      mkindex treeWorld overlapConfig 2 [[47, 114], [47, 114, 47, 120]] =
        .ok [[47, 114, 47, 116, 46, 109, 100], [47, 114, 47, 120, 47, 102, 46, 116, 120, 116],
          [47, 114, 47, 121, 47, 103, 46, 103, 111],
          [47, 114, 47, 120, 47, 102, 46, 116, 120, 116]] ∧
      mainAction treeWorld overlapConfig 2 =
        ([Event.report [47, 114] 4
            [([46, 109, 100], 2), ([46, 116, 120, 116], 4), ([46, 103, 111], 1)],
          Event.done], .ok ())) ∧
    (isNeedExcludePath extConfig [100, 47, 98, 46, 116, 120, 116] = false ∧
      isTextFile extWorld [100, 47, 98, 46, 116, 120, 116] = true ∧
      mkindex extWorld extConfig 2 [[100]] = .ok [[100, 47, 97, 46, 103, 111]]) ∧
    (isNeedExcludePath plainConfig [47, 104, 47, 46, 100, 47, 99, 46, 116, 120, 116] = false ∧
      isTextFile nestedHiddenWorld [47, 104, 47, 46, 100, 47, 99, 46, 116, 120, 116] = true ∧
      mkindex nestedHiddenWorld plainConfig 2 [[47, 104]] = .ok []) :=
  ⟨⟨by decide, by decide, by decide, by decide⟩,
   ⟨by decide, by decide, rfl, by decide, by decide⟩,
   ⟨by decide, by decide, by decide⟩,
   ⟨by decide, by decide, by decide⟩⟩

/-- C2 as amended: when `printtree` succeeds it prints nothing or the one report of the
index `mkindex` builds from the node's paths. The total of each extension is the sum of
the line counts of the readable entries of that index with that extension, each entry
counted once. The index is exactly the list `expectedIndex`: for each of the node's paths
in order, a non-directory adds itself once when it passes the exclusion and extension
filters (text detection is not applied to it), and a directory that is not excluded adds,
for each entry of its listing that is not hidden and not excluded, the index of the entry
alone when the entry is a directory, then the entry itself once when it passes the
extension filter and text detection. So a path is in the index exactly when it is
`Listed`, it passes the exclusion and extension filters, it passes text detection unless
it is a non-directory listed in the node's paths itself, and it is counted once for each
time the node's paths reach it. -/
theorem printtree_totals (w : World) (cfg : Config) (fuel : Nat) (currpath : GoString)
    (paths : List GoString) (evs : List Event)
    (h : printtree w cfg fuel currpath paths = .ok evs) :
    ∃ idx, mkindex w cfg fuel paths = .ok idx ∧
      ((idx = [] ∧ evs = []) ∨
        evs = [Event.report currpath idx.length (printedRows cfg (count w idx).1)]) ∧
      (∀ e, mapGet (count w idx).1 e =
        ((idx.filter (fun p => rextOf p = e)).filterMap (readableLines w)).sum) ∧
      idx = expectedIndex w cfg fuel paths ∧
      (∀ q, idx.count q = (expectedIndex w cfg fuel paths).count q) ∧
      (∀ q, q ∈ idx ↔ Listed w cfg paths q) ∧
      (∀ q ∈ idx, isNeedExcludePath cfg q = false ∧ isNeedFilterByExt cfg q = false ∧
        ((q ∈ paths ∧ w.Stat q = .ok false) ∨ isTextFile w q = true)) := by
  unfold printtree at h
  cases hidx : mkindex w cfg fuel paths with
  | error err => simp [hidx] at h
  | timeout => simp [hidx] at h
  | ok idx =>
    simp only [hidx] at h
    have hexact := mkindex_exact w cfg fuel paths idx hidx
    refine ⟨idx, rfl, ?_, ?_, hexact, ?_, ?_, ?_⟩
    · by_cases hlen : idx.length = 0
      · left
        simp only [hlen, if_true, Outcome.ok.injEq] at h
        exact ⟨List.length_eq_zero.mp hlen, h.symm⟩
      · right
        simp only [hlen, if_false, count, Outcome.ok.injEq] at h
        rw [← h]
        rfl
    · intro e
      simp [count, countLoop_get, mapGet]
    · intro q
      rw [← hexact]
    · intro q
      exact ⟨mkindex_sound w cfg fuel paths idx hidx q,
        fun hl => mkindex_complete w cfg paths q hl fuel idx hidx⟩
    · intro q hq
      exact mkindex_indexed w cfg fuel paths idx hidx q hq

/-- C2 as amended at the directory `/w` of `mixedWorld`: of its five entries four fail text
detection and the index is `/w/m.go` alone, counted once. -/
theorem printtree_totals_witness :
    printtree mixedWorld plainConfig 1 [47, 119] [[47, 119]] =
      .ok [Event.report [47, 119] 1 [([46, 103, 111], 2)]] ∧
    expectedIndex mixedWorld plainConfig 1 [[47, 119]] = [[47, 119, 47, 109, 46, 103, 111]] ∧
    ∃ idx, mkindex mixedWorld plainConfig 1 [[47, 119]] = .ok idx ∧
      (∀ e, mapGet (count mixedWorld idx).1 e =
        ((idx.filter (fun p => rextOf p = e)).filterMap (readableLines mixedWorld)).sum) ∧
      idx = expectedIndex mixedWorld plainConfig 1 [[47, 119]] ∧
      (∀ q, q ∈ idx ↔ Listed mixedWorld plainConfig [[47, 119]] q) :=
  ⟨by decide, by decide,
   match printtree_totals mixedWorld plainConfig 1 [47, 119] [[47, 119]]
      [Event.report [47, 119] 1 [([46, 103, 111], 2)]] (by decide) with
   | ⟨idx, h1, _, h3, h4, _, h6, _⟩ => ⟨idx, h1, h3, h4, h6⟩⟩

/-! ## The `tree` flag and the depth of a run -/

theorem mainAction_depth (w : World) (cfg : Config) (fuel : Nat) (wd : GoString)
    (hwd : w.Getwd = .ok wd) :
    mainAction w cfg fuel =
      match mktree w cfg fuel (.mk [] [] (if cfg.tree = 0 then wd else []))
          (if cfg.paths.length = 0 then [wd] else cfg.paths) (tdeepOf cfg.tree) with
      | .error err => ([], .error err)
      | .timeout => ([], .timeout)
      | .ok t1 =>
        match walk w cfg fuel t1 (tdeepOf cfg.tree) with
        | (evs, .error err) => (evs, .error err)
        | (evs, .timeout) => (evs, .timeout)
        | (evs, .ok _) => (evs ++ [Event.done], .ok ()) := by
  unfold mainAction tdeepOf
  rw [hwd]

/-- C12: from the initial configuration the `tree` flag action stores the value clamped to
`[0, 255]`; the depth handed to `mktree` and `walk` is 0 for the stored depth 0 and the
stored depth plus one otherwise, computed in `int` (256 for 255). -/
theorem treeAction_clamps (cfg : Config) (v : Int) (h0 : cfg.tree = 0) :
    ((treeAction cfg v).tree : Int) = min (max v 0) 255 ∧
    (treeAction cfg v).tree < 256 ∧
    tdeepOf (treeAction cfg v).tree =
      (if (treeAction cfg v).tree = 0 then 0 else ((treeAction cfg v).tree : Int) + 1) ∧
    (v ≥ 255 → tdeepOf (treeAction cfg v).tree = 256) ∧
    ∀ (w : World) (fuel : Nat) (wd : GoString), w.Getwd = .ok wd →
      mainAction w (treeAction cfg v) fuel =
        match mktree w (treeAction cfg v) fuel
            (.mk [] [] (if (treeAction cfg v).tree = 0 then wd else []))
            (if (treeAction cfg v).paths.length = 0 then [wd] else (treeAction cfg v).paths)
            (tdeepOf (treeAction cfg v).tree) with
        | .error err => ([], .error err)
        | .timeout => ([], .timeout)
        | .ok t1 =>
          match walk w (treeAction cfg v) fuel t1 (tdeepOf (treeAction cfg v).tree) with
          | (evs, .error err) => (evs, .error err)
          | (evs, .timeout) => (evs, .timeout)
          | (evs, .ok _) => (evs ++ [Event.done], .ok ()) := by
  have hstored : ((treeAction cfg v).tree : Int) = min (max v 0) 255 := by
    unfold treeAction
    by_cases h1 : v > 255
    · rw [if_pos h1]
      simp only [Nat.cast_ofNat]
      omega
    · rw [if_neg h1]
      by_cases h2 : v > 0
      · rw [if_pos h2]
        simp only
        have hlt : v.toNat < 256 := by omega
        rw [Nat.mod_eq_of_lt hlt]
        omega
      · rw [if_neg h2, h0]
        simp only [Nat.cast_zero]
        omega
  have hdeep : tdeepOf (treeAction cfg v).tree =
      (if (treeAction cfg v).tree = 0 then 0 else ((treeAction cfg v).tree : Int) + 1) := by
    unfold tdeepOf
    by_cases hz : (treeAction cfg v).tree = 0
    · simp [hz]
    · have hpos : (treeAction cfg v).tree > 0 := Nat.pos_of_ne_zero hz
      simp [hz, hpos]
  refine ⟨hstored, ?_, hdeep, ?_, ?_⟩
  · have : ((treeAction cfg v).tree : Int) < 256 := by
      rw [hstored]
      omega
    exact_mod_cast this
  · intro hv
    have h255 : ((treeAction cfg v).tree : Int) = 255 := by
      rw [hstored]
      omega
    have hne : (treeAction cfg v).tree ≠ 0 := by
      intro hz
      rw [hz] at h255
      simp at h255
    rw [hdeep, if_neg hne, h255]
    rfl
  · intro w fuel wd hwd
    exact mainAction_depth w (treeAction cfg v) fuel wd hwd

/-- C12 at the flag value 300 on the initial configuration: 255 is stored and the depth of
the run is 256. -/
theorem treeAction_clamps_witness :
    ((treeAction initialConfig 300).tree : Int) = min (max 300 0) 255 ∧
    tdeepOf (treeAction initialConfig 300).tree = 256 :=
  ⟨(treeAction_clamps initialConfig 300 rfl).1,
   (treeAction_clamps initialConfig 300 rfl).2.2.2.1 (by decide)⟩

/-! ## The text threshold -/

theorem ratioAboveThreshold_iff (p n : Nat) (hn : n < 2 ^ 50) :
    ratioAboveThreshold p n = true ↔ 4 * n < 5 * p := by
  simp only [ratioAboveThreshold, decide_eq_true_eq]
  norm_num at hn ⊢
  omega

/-- C16: for non-empty valid UTF-8 content (shorter than `2^50` bytes, which every byte
slice a Go program can hold is) `isTextFile` answers true exactly when five times the
number of decoded characters that are printable or white space exceeds four times the
length in bytes; at equality the answer is false. -/
theorem isTextFile_iff_ratio (w : World) (path f : GoString)
    (hread : w.ReadFile path = .ok f) (hne : f ≠ []) (hvalid : utf8Valid f = true)
    (hsize : f.length < 2 ^ 50) :
    (isTextFile w path = true ↔
      4 * f.length <
        5 * (rangeRunes f).countP (fun r => IsPrint w.tables r || IsSpace w.tables r)) ∧
    (4 * f.length =
        5 * (rangeRunes f).countP (fun r => IsPrint w.tables r || IsSpace w.tables r) →
      isTextFile w path = false) := by
  have hlen : f.length ≠ 0 := fun h => hne (List.length_eq_zero.mp h)
  have hmain : isTextFile w path = ratioAboveThreshold
      ((rangeRunes f).countP (fun r => IsPrint w.tables r || IsSpace w.tables r))
      f.length := by
    unfold isTextFile
    rw [hread]
    simp [hlen, hvalid]
  constructor
  · rw [hmain]
    exact ratioAboveThreshold_iff _ _ hsize
  · intro heq
    rw [hmain]
    cases hr : ratioAboveThreshold
        ((rangeRunes f).countP (fun r => IsPrint w.tables r || IsSpace w.tables r))
        f.length with
    | false => rfl
    | true =>
      have := (ratioAboveThreshold_iff _ _ hsize).mp hr
      omega

/-- C16 at the file `/t` of `thresholdWorld`, four printable bytes and a NUL byte: four of
five characters are printable and the file is not text. -/
theorem isTextFile_iff_ratio_witness :
    (rangeRunes [97, 98, 99, 100, 0]).countP
      (fun r => IsPrint thresholdWorld.tables r || IsSpace thresholdWorld.tables r) = 4 ∧
    isTextFile thresholdWorld [47, 116] = false :=
  ⟨by decide,
   (isTextFile_iff_ratio thresholdWorld [47, 116] [97, 98, 99, 100, 0] rfl (by decide)
      (by decide) (by norm_num)).2 (by decide)⟩

/-! ## Directly listed paths -/

/-- C14: a non-directory listed in the input of `mkindex` is in the index exactly when it
is neither excluded nor filtered by extension, whatever text detection says of it; and a
path that fails text detection is in the index only as such a directly listed
non-directory, never as an entry found in a directory. -/
theorem mkindex_listed_file (w : World) (cfg : Config) (fuel : Nat)
    (paths idx : List GoString) (p : GoString) (hp : p ∈ paths)
    (hfile : w.Stat p = .ok false) (h : mkindex w cfg fuel paths = .ok idx) :
    (p ∈ idx ↔ isNeedExcludePath cfg p = false ∧ isNeedFilterByExt cfg p = false) ∧
    (∀ q ∈ idx, isTextFile w q = false → q ∈ paths ∧ w.Stat q = .ok false) := by
  constructor
  · constructor
    · intro hmem
      have hi := mkindex_indexed w cfg fuel paths idx h p hmem
      exact ⟨hi.1, hi.2.1⟩
    · intro hpass
      exact mkindex_complete w cfg paths p (Listed.direct paths p hp hfile hpass.1 hpass.2)
        fuel idx h
  · intro q hq hnt
    rcases (mkindex_indexed w cfg fuel paths idx h q hq).2.2 with hd | ht
    · exact hd
    · rw [hnt] at ht
      exact Bool.noConfusion ht

/-- C14 at the zero-byte file `/w/b.dat` of `mixedWorld`: listed directly it is the index,
found as an entry of the listed directory `/w` it is absent. -/
theorem mkindex_listed_file_witness :
    isTextFile mixedWorld [47, 119, 47, 98, 46, 100, 97, 116] = false ∧
    mkindex mixedWorld plainConfig 1 [[47, 119, 47, 98, 46, 100, 97, 116]] =
      .ok [[47, 119, 47, 98, 46, 100, 97, 116]] ∧
    mkindex mixedWorld plainConfig 1 [[47, 119]] = .ok [[47, 119, 47, 109, 46, 103, 111]] ∧
    ([47, 119, 47, 98, 46, 100, 97, 116] ∈ [[47, 119, 47, 98, 46, 100, 97, 116]] ↔
      isNeedExcludePath plainConfig [47, 119, 47, 98, 46, 100, 97, 116] = false ∧
        isNeedFilterByExt plainConfig [47, 119, 47, 98, 46, 100, 97, 116] = false) :=
  ⟨by decide, by decide, by decide,
   (mkindex_listed_file mixedWorld plainConfig 1 [[47, 119, 47, 98, 46, 100, 97, 116]]
      [[47, 119, 47, 98, 46, 100, 97, 116]] [47, 119, 47, 98, 46, 100, 97, 116]
      (by decide) rfl (by decide)).1⟩

/-! ## Directory entries in the index -/

theorem isTextFile_dir (w : World) (ep : GoString)
    (hdir : ∀ p, w.Stat p = .ok true → ∃ e, w.ReadFile p = .error e)
    (hst : w.Stat ep = .ok true) : isTextFile w ep = false := by
  obtain ⟨e, he⟩ := hdir ep hst
  simp [isTextFile, he]

theorem appendEntry_dir (w : World) (cfg : Config) (ep : GoString) (findex : List GoString)
    (hdir : ∀ p, w.Stat p = .ok true → ∃ e, w.ReadFile p = .error e)
    (hst : w.Stat ep = .ok true) : appendEntry w cfg ep findex = findex := by
  unfold appendEntry
  rw [isTextFile_dir w ep hdir hst]
  split_ifs <;> simp_all

theorem mkindexEntries_eq_recurseOnly (w : World) (cfg : Config)
    (self self1 : List GoString → Outcome (List GoString)) (p : GoString)
    (hdir : ∀ p, w.Stat p = .ok true → ∃ e, w.ReadFile p = .error e)
    (hself : ∀ ps, self ps = self1 ps) :
    ∀ es findex, mkindexEntries w cfg self p es findex =
      mkindexEntriesRecurseOnly w cfg self1 p es findex := by
  intro es
  induction es with
  | nil =>
    intro findex
    rfl
  | cons e es ih =>
    intro findex
    unfold mkindexEntries mkindexEntriesRecurseOnly
    by_cases hdot : HasPrefix e [DOT] = true
    · rw [if_pos hdot, if_pos hdot]
      exact ih findex
    · rw [if_neg hdot, if_neg hdot]
      cases hst : w.Stat (Join [p, e]) with
      | error err => rfl
      | ok isDir =>
        cases isDir with
        | false =>
          simp only [Bool.false_eq_true, if_false]
          exact ih _
        | true =>
          simp only [if_true]
          by_cases hex : isNeedExcludePath cfg (Join [p, e]) = true
          · rw [if_pos hex, if_pos hex]
            exact ih findex
          · rw [if_neg hex, if_neg hex, hself]
            cases hrec : self1 [Join [p, e]] with
            | error err => rfl
            | timeout => rfl
            | ok fi =>
              simp only
              rw [appendEntry_dir w cfg _ _ hdir hst]
              exact ih _

theorem mkindexPaths_eq_recurseOnly (w : World) (cfg : Config)
    (self self1 : List GoString → Outcome (List GoString))
    (hdir : ∀ p, w.Stat p = .ok true → ∃ e, w.ReadFile p = .error e)
    (hself : ∀ ps, self ps = self1 ps) :
    ∀ ps findex, mkindexPaths w cfg self ps findex =
      mkindexPathsRecurseOnly w cfg self1 ps findex := by
  intro ps
  induction ps with
  | nil =>
    intro findex
    rfl
  | cons p ps ih =>
    intro findex
    unfold mkindexPaths mkindexPathsRecurseOnly
    cases hst : w.Stat p with
    | error err => rfl
    | ok isDir =>
      cases isDir with
      | false =>
        simp only [Bool.not_false, if_true]
        split_ifs
        · exact ih _
        · exact ih _
      | true =>
        simp only [Bool.not_true, Bool.false_eq_true, if_false]
        by_cases hex : isNeedExcludePath cfg p = true
        · rw [if_pos hex, if_pos hex]
          exact ih _
        · rw [if_neg hex, if_neg hex]
          cases hrd : w.ReadDir p with
          | error err => rfl
          | ok es =>
            simp only
            rw [mkindexEntries_eq_recurseOnly w cfg self self1 p hdir hself es findex]
            cases mkindexEntriesRecurseOnly w cfg self1 p es findex with
            | error err => rfl
            | timeout => rfl
            | ok findex1 => exact ih _

theorem mkindex_recurseOnly_eq (w : World) (cfg : Config)
    (hdir : ∀ p, w.Stat p = .ok true → ∃ e, w.ReadFile p = .error e) :
    ∀ fuel paths, mkindex w cfg fuel paths = mkindexRecurseOnly w cfg fuel paths := by
  intro fuel
  induction fuel with
  | zero =>
    intro paths
    rfl
  | succ fuel ih =>
    intro paths
    unfold mkindex mkindexRecurseOnly
    exact mkindexPaths_eq_recurseOnly w cfg _ _ hdir ih paths []

theorem mkindexEntries_nondir (w : World) (cfg : Config)
    (self : List GoString → Outcome (List GoString)) (p : GoString)
    (hdir : ∀ p, w.Stat p = .ok true → ∃ e, w.ReadFile p = .error e)
    (hself : ∀ ps idx, self ps = .ok idx → ∀ q ∈ idx, w.Stat q = .ok false) :
    ∀ es findex idx, (∀ q ∈ findex, w.Stat q = .ok false) →
      mkindexEntries w cfg self p es findex = .ok idx → ∀ q ∈ idx, w.Stat q = .ok false := by
  intro es
  induction es with
  | nil =>
    intro findex idx hfi h
    simp only [mkindexEntries, Outcome.ok.injEq] at h
    subst h
    exact hfi
  | cons e es ih =>
    intro findex idx hfi h
    unfold mkindexEntries at h
    by_cases hdot : HasPrefix e [DOT] = true
    · rw [if_pos hdot] at h
      exact ih findex idx hfi h
    · rw [if_neg hdot] at h
      cases hst : w.Stat (Join [p, e]) with
      | error err => simp [hst] at h
      | ok isDir =>
        simp only [hst] at h
        cases isDir with
        | false =>
          simp only [Bool.false_eq_true, if_false] at h
          refine ih _ idx ?_ h
          intro q hq
          rcases appendEntry_mem w cfg _ q findex hq with h1 | ⟨h1, _⟩
          · exact hfi q h1
          · rw [h1]
            exact hst
        | true =>
          simp only [if_true] at h
          by_cases hex : isNeedExcludePath cfg (Join [p, e]) = true
          · rw [if_pos hex] at h
            exact ih findex idx hfi h
          · rw [if_neg hex] at h
            cases hrec : self [Join [p, e]] with
            | error err => simp [hrec] at h
            | timeout => simp [hrec] at h
            | ok fi =>
              simp only [hrec] at h
              rw [appendEntry_dir w cfg _ _ hdir hst] at h
              refine ih _ idx ?_ h
              intro q hq
              rcases List.mem_append.mp hq with hq | hq
              · exact hfi q hq
              · exact hself _ fi hrec q hq

theorem mkindexPaths_nondir (w : World) (cfg : Config)
    (self : List GoString → Outcome (List GoString))
    (hdir : ∀ p, w.Stat p = .ok true → ∃ e, w.ReadFile p = .error e)
    (hself : ∀ ps idx, self ps = .ok idx → ∀ q ∈ idx, w.Stat q = .ok false) :
    ∀ ps findex idx, (∀ q ∈ findex, w.Stat q = .ok false) →
      mkindexPaths w cfg self ps findex = .ok idx → ∀ q ∈ idx, w.Stat q = .ok false := by
  intro ps
  induction ps with
  | nil =>
    intro findex idx hfi h
    simp only [mkindexPaths, Outcome.ok.injEq] at h
    subst h
    exact hfi
  | cons p ps ih =>
    intro findex idx hfi h
    unfold mkindexPaths at h
    cases hst : w.Stat p with
    | error err => simp [hst] at h
    | ok isDir =>
      simp only [hst] at h
      cases isDir with
      | false =>
        simp only [Bool.not_false, if_true] at h
        by_cases hex : (isNeedExcludePath cfg p || isNeedFilterByExt cfg p) = true
        · rw [if_pos hex] at h
          exact ih findex idx hfi h
        · rw [if_neg hex] at h
          refine ih _ idx ?_ h
          intro q hq
          rcases List.mem_append.mp hq with hq | hq
          · exact hfi q hq
          · have hqp : q = p := by simpa using hq
            rw [hqp]
            exact hst
      | true =>
        simp only [Bool.not_true, Bool.false_eq_true, if_false] at h
        by_cases hex : isNeedExcludePath cfg p = true
        · rw [if_pos hex] at h
          exact ih findex idx hfi h
        · rw [if_neg hex] at h
          cases hrd : w.ReadDir p with
          | error err => simp [hrd] at h
          | ok es =>
            simp only [hrd] at h
            cases hes : mkindexEntries w cfg self p es findex with
            | error err => simp [hes] at h
            | timeout => simp [hes] at h
            | ok findex1 =>
              simp only [hes] at h
              exact ih findex1 idx
                (mkindexEntries_nondir w cfg self p hdir hself es findex findex1 hfi hes) h

theorem mkindex_nondir (w : World) (cfg : Config)
    (hdir : ∀ p, w.Stat p = .ok true → ∃ e, w.ReadFile p = .error e) :
    ∀ fuel paths idx, mkindex w cfg fuel paths = .ok idx → ∀ q ∈ idx, w.Stat q = .ok false := by
  intro fuel
  induction fuel with
  | zero =>
    intro paths idx h
    simp [mkindex] at h
  | succ fuel ih =>
    intro paths idx h
    unfold mkindex at h
    exact mkindexPaths_nondir w cfg _ hdir (fun ps fi hrec => ih ps fi hrec) paths [] idx
      (by simp) h

theorem tableWorld_dir_unreadable (wd : GoString) (tab : List (GoString × Node))
    (p : GoString) (h : (tableWorld wd tab).Stat p = .ok true) :
    ∃ e, (tableWorld wd tab).ReadFile p = .error e := by
  simp only [tableWorld] at h ⊢
  cases hl : lookupNode tab p with
  | none => simp [hl] at h
  | some n =>
    cases n with
    | dir names => exact ⟨21, rfl⟩
    | file content => simp [hl] at h
    | locked => simp [hl] at h

/-- C15: where reading a directory as a file fails, `mkindex` never appends a directory
entry itself: every path of a returned index is a non-directory, and `mkindex` answers
exactly what the variant answers in which a directory entry is only recursed into. -/
theorem mkindex_eq_recurseOnly (w : World) (cfg : Config) (fuel : Nat)
    (paths : List GoString)
    (hdir : ∀ p, w.Stat p = .ok true → ∃ e, w.ReadFile p = .error e) :
    mkindex w cfg fuel paths = mkindexRecurseOnly w cfg fuel paths ∧
    ∀ idx, mkindex w cfg fuel paths = .ok idx → ∀ q ∈ idx, w.Stat q = .ok false :=
  ⟨mkindex_recurseOnly_eq w cfg hdir fuel paths, mkindex_nondir w cfg hdir fuel paths⟩

/-- C15 at the root `/r` of `treeWorld`, whose entries `x` and `y` are directories. -/
theorem mkindex_eq_recurseOnly_witness :
    mkindex treeWorld plainConfig 2 [[47, 114]] =
      .ok [[47, 114, 47, 116, 46, 109, 100], [47, 114, 47, 120, 47, 102, 46, 116, 120, 116],
        [47, 114, 47, 121, 47, 103, 46, 103, 111]] ∧
    mkindex treeWorld plainConfig 2 [[47, 114]] =
      mkindexRecurseOnly treeWorld plainConfig 2 [[47, 114]] :=
  ⟨by decide,
   (mkindex_eq_recurseOnly treeWorld plainConfig 2 [[47, 114]]
      (fun p h => tableWorld_dir_unreadable _ _ p h)).1⟩

/-! ## The walk as a sequence of attempts -/

theorem attempts_cons (w : World) (cfg : Config) (fuel : Nat) (t : ptree) (rest : List ptree) :
    attempts w cfg fuel (t :: rest) =
      match printtree w cfg fuel t.currpath t.paths with
      | .error err => ([Event.errorLine err], .error err)
      | .timeout => ([], .timeout)
      | .ok evs => (evs ++ (attempts w cfg fuel rest).1, (attempts w cfg fuel rest).2) := by
  rw [attempts]

theorem attempts_append (w : World) (cfg : Config) (fuel : Nat) (a b : List ptree) :
    attempts w cfg fuel (a ++ b) =
      match attempts w cfg fuel a with
      | (evs, .ok _) => (evs ++ (attempts w cfg fuel b).1, (attempts w cfg fuel b).2)
      | (evs, .error err) => (evs, .error err)
      | (evs, .timeout) => (evs, .timeout) := by
  induction a with
  | nil => simp [attempts]
  | cons t rest ih =>
    rw [List.cons_append, attempts_cons, attempts_cons]
    cases hp : printtree w cfg fuel t.currpath t.paths with
    | error err => rfl
    | timeout => rfl
    | ok evs =>
      simp only
      rw [ih]
      cases hr : attempts w cfg fuel rest with
      | mk e s =>
        cases s with
        | error err => rfl
        | timeout => rfl
        | ok u => simp [List.append_assoc]

theorem walk_zero (w : World) (cfg : Config) (fuel : Nat) (t : ptree) :
    walk w cfg fuel t 0 = attempts w cfg fuel ([t].filter reportable) := by
  cases t with
  | mk ps ns d =>
    rw [walk]
    by_cases hc : (0 : Int) = 0 ∧ ps.length > 0 ∧ d ≠ []
    · have hr : reportable (.mk ps ns d) = true := by
        simp [reportable, ptree.paths, ptree.currpath, hc.2.1, hc.2.2]
      rw [if_pos hc, List.filter_cons_of_pos hr]
      simp only [List.filter_nil, attempts, ptree.paths, ptree.currpath]
      cases hp : printtree w cfg fuel d ps with
      | error err => rfl
      | timeout => rfl
      | ok evs =>
        by_cases hn : ns.length = 0 <;> simp [hn]
    · have hr : ¬ reportable (.mk ps ns d) = true := by
        intro hr
        simp only [reportable, ptree.paths, ptree.currpath, Bool.and_eq_true,
          decide_eq_true_eq] at hr
        exact hc ⟨rfl, hr.1, hr.2⟩
      rw [if_neg hc, List.filter_cons_of_neg hr]
      simp only [List.filter_nil, attempts]
      by_cases hn : ns.length = 0 <;> simp [hn]

theorem walkNodes_eq_attempts (w : World) (cfg : Config) (fuel n : Nat)
    (hwalk : ∀ t, walk w cfg fuel t (n : Int) =
      attempts w cfg fuel ((nodesAt n t).filter reportable)) :
    ∀ ns, walkNodes w cfg fuel ns (n : Int) =
      attempts w cfg fuel ((ns.flatMap (nodesAt n)).filter reportable) := by
  intro ns
  induction ns with
  | nil => simp [walkNodes, attempts]
  | cons t ns ih =>
    rw [walkNodes, List.flatMap_cons, List.filter_append, attempts_append, ← hwalk t, ← ih]

theorem walk_eq_attempts (w : World) (cfg : Config) (fuel : Nat) :
    ∀ (n : Nat) (t : ptree), walk w cfg fuel t (n : Int) =
      attempts w cfg fuel ((nodesAt n t).filter reportable) := by
  intro n
  induction n with
  | zero =>
    intro t
    exact walk_zero w cfg fuel t
  | succ n ih =>
    intro t
    cases t with
    | mk ps ns d =>
      have h1 : ((n + 1 : Nat) : Int) = (n : Int) + 1 := by push_cast; rfl
      rw [h1, walk_inner, walkNodes_eq_attempts w cfg fuel n ih]
      rfl

/-- C13: on every tree and for every depth `n ≥ 0`, `walk` makes the report attempts of
exactly the nodes located `n` levels below the starting node that have a non-empty path
list and a non-empty `currpath`, depth first and children from left to right, an attempt
that fails ending the walk; a node above level `n` is not reported, and the children of a
node at level `n` are not visited. -/
theorem walk_reports_exact_depth (w : World) (cfg : Config) (fuel n : Nat) (t : ptree) :
    walk w cfg fuel t (n : Int) = attempts w cfg fuel ((nodesAt n t).filter reportable) ∧
    nodesAt 0 t = [t] ∧
    nodesAt (n + 1) t = t.nodes.flatMap (nodesAt n) :=
  ⟨walk_eq_attempts w cfg fuel n t, rfl, rfl⟩

/-- C13 at `chainTree` in `treeWorld`: the walk with depth 1 reports the child `/r/x` only,
not the root above it and not the grandchild `/r/y` below it; the walk with depth 0
reports the root only. -/
theorem walk_reports_exact_depth_witness :
    walk treeWorld plainConfig 1 chainTree 1 =
      ([Event.report [47, 114, 47, 120] 1 [([46, 116, 120, 116], 2)]], .ok ()) ∧
    walk treeWorld plainConfig 1 chainTree 0 =
      ([Event.report [47, 114] 1 [([46, 109, 100], 2)]], .ok ()) ∧
    walk treeWorld plainConfig 1 chainTree ((1 : Nat) : Int) =
      attempts treeWorld plainConfig 1 ((nodesAt 1 chainTree).filter reportable) :=
  ⟨by decide, by decide, (walk_reports_exact_depth treeWorld plainConfig 1 1 chainTree).1⟩

/-! ## The log and the plain functions -/

theorem mkindexEntriesL_erase (w : World) (cfg : Config)
    (self : List GoString → Logged (List GoString)) (p : GoString) :
    ∀ es findex, (mkindexEntriesL w cfg self p es findex).2 =
      mkindexEntries w cfg (fun ps => (self ps).2) p es findex := by
  intro es
  induction es with
  | nil =>
    intro findex
    rfl
  | cons e es ih =>
    intro findex
    unfold mkindexEntriesL mkindexEntries
    by_cases hdot : HasPrefix e [DOT] = true
    · rw [if_pos hdot, if_pos hdot]
      exact ih findex
    · rw [if_neg hdot, if_neg hdot]
      cases hst : w.Stat (Join [p, e]) with
      | error err => rfl
      | ok isDir =>
        cases isDir with
        | false =>
          simp only [Bool.false_eq_true, if_false, after]
          exact ih _
        | true =>
          simp only [if_true]
          by_cases hex : isNeedExcludePath cfg (Join [p, e]) = true
          · rw [if_pos hex, if_pos hex]
            exact ih findex
          · rw [if_neg hex, if_neg hex]
            cases hrec : self [Join [p, e]] with
            | mk log o =>
              cases o with
              | error err => rfl
              | timeout => rfl
              | ok fi =>
                simp only [after]
                exact ih _

theorem mkindexPathsL_erase (w : World) (cfg : Config)
    (self : List GoString → Logged (List GoString)) :
    ∀ ps findex, (mkindexPathsL w cfg self ps findex).2 =
      mkindexPaths w cfg (fun qs => (self qs).2) ps findex := by
  intro ps
  induction ps with
  | nil =>
    intro findex
    rfl
  | cons p ps ih =>
    intro findex
    unfold mkindexPathsL mkindexPaths
    cases hst : w.Stat p with
    | error err => rfl
    | ok isDir =>
      cases isDir with
      | false =>
        simp only [Bool.not_false, if_true]
        split_ifs
        · exact ih _
        · exact ih _
      | true =>
        simp only [Bool.not_true, Bool.false_eq_true, if_false]
        by_cases hex : isNeedExcludePath cfg p = true
        · rw [if_pos hex, if_pos hex]
          exact ih _
        · rw [if_neg hex, if_neg hex]
          cases hrd : w.ReadDir p with
          | error err => rfl
          | ok es =>
            simp only
            rw [← mkindexEntriesL_erase w cfg self p es findex]
            cases hes : mkindexEntriesL w cfg self p es findex with
            | mk log o =>
              cases o with
              | error err => rfl
              | timeout => rfl
              | ok findex1 =>
                simp only [after]
                exact ih _

theorem mkindexL_erase (w : World) (cfg : Config) :
    ∀ fuel paths, (mkindexL w cfg fuel paths).2 = mkindex w cfg fuel paths := by
  intro fuel
  induction fuel with
  | zero =>
    intro paths
    rfl
  | succ fuel ih =>
    intro paths
    unfold mkindexL mkindex
    rw [mkindexPathsL_erase]
    have hfun : (fun qs => (mkindexL w cfg fuel qs).2) = fun ps => mkindex w cfg fuel ps :=
      funext ih
    rw [hfun]

theorem mktreeLoopL_erase (w : World) (cfg : Config)
    (self : ptree → List GoString → Logged ptree) (tdeep : Int) :
    ∀ ps tree, (mktreeLoopL w cfg self tdeep ps tree).2 =
      mktreeLoop w cfg (fun t qs => (self t qs).2) tdeep ps tree := by
  intro ps
  induction ps with
  | nil =>
    intro tree
    rfl
  | cons p0 rest ih =>
    intro tree
    unfold mktreeLoopL mktreeLoop
    cases hres : (if p0 = [DOT] then w.Getwd else Except.ok p0) with
    | error err => rfl
    | ok p =>
      simp only
      cases hex : isNeedExcludePath cfg p with
      | true =>
        simp only [Bool.not_true, Bool.false_eq_true, if_false, after]
        exact ih _
      | false =>
        simp only [Bool.not_false, if_true]
        cases hst : w.Stat p with
        | error err => rfl
        | ok isDir =>
          simp only
          by_cases hd : (isDir && tdeep != 0) = true
          · rw [if_pos hd, if_pos hd]
            cases hrd : w.ReadDir p with
            | error err => rfl
            | ok es =>
              simp only
              cases hrec : self (.mk [] [] p) (es.map (fun e => Join [p, e])) with
              | mk log o =>
                cases o with
                | error err => rfl
                | timeout => rfl
                | ok t =>
                  simp only [after]
                  exact ih _
          · rw [if_neg hd, if_neg hd]
            simp only [after]
            exact ih _

theorem mktreeL_erase (w : World) (cfg : Config) :
    ∀ fuel tree paths tdeep, (mktreeL w cfg fuel tree paths tdeep).2 =
      mktree w cfg fuel tree paths tdeep := by
  intro fuel
  induction fuel with
  | zero =>
    intro tree paths tdeep
    rfl
  | succ fuel ih =>
    intro tree paths tdeep
    unfold mktreeL mktree
    by_cases hb : tdeep = -1
    · rw [if_pos hb, if_pos hb]
    · rw [if_neg hb, if_neg hb, mktreeLoopL_erase]
      have hfun : (fun t qs => (mktreeL w cfg fuel t qs (tdeep - 1)).2) =
          fun t ps => mktree w cfg fuel t ps (tdeep - 1) := by
        funext t qs
        exact ih t qs (tdeep - 1)
      rw [hfun]

/-! ## A failed call ends the function -/

theorem allOk_nil (w : World) : AllOk w [] := by
  intro c hc
  simp at hc

theorem allOk_append (w : World) (a b : List Call) (ha : AllOk w a) (hb : AllOk w b) :
    AllOk w (a ++ b) := by
  intro c hc
  rcases List.mem_append.mp hc with h | h
  · exact ha c h
  · exact hb c h

theorem allOk_cons (w : World) (c : Call) (l : List Call) (hc : c.failure w = none)
    (hl : AllOk w l) : AllOk w (c :: l) := by
  intro c1 h1
  rcases List.mem_cons.mp h1 with h | h
  · rw [h]
    exact hc
  · exact hl c1 h

theorem failFast_done {α : Type} (w : World) (log : List Call) (o : Outcome α)
    (hl : AllOk w log) (ho : ∀ e, o ≠ .error e) : FailFast w (log, o) :=
  Or.inl ⟨hl, ho⟩

theorem failFast_fail {α : Type} (w : World) (log : List Call) (c : Call) (e : OsError)
    (hl : AllOk w log) (hc : c.failure w = some e) :
    FailFast w ((log ++ [c], .error e) : Logged α) :=
  Or.inr ⟨log, c, e, rfl, hl, hc, rfl⟩

theorem failFast_after {α : Type} (w : World) (log : List Call) (x : Logged α)
    (hl : AllOk w log) (hx : FailFast w x) : FailFast w (after log x) := by
  rcases hx with ⟨h1, h2⟩ | ⟨pre, c, e, h1, h2, h3, h4⟩
  · exact Or.inl ⟨allOk_append w log x.1 hl h1, h2⟩
  · refine Or.inr ⟨log ++ pre, c, e, ?_, allOk_append w log pre hl h2, h3, h4⟩
    simp [after, h1]

theorem allOk_of_failFast_ok {α : Type} (w : World) (log : List Call) (a : α)
    (hx : FailFast w ((log, .ok a) : Logged α)) : AllOk w log := by
  rcases hx with ⟨h1, _⟩ | ⟨pre, c, e, _, _, _, h4⟩
  · exact h1
  · simp at h4

theorem stat_failure_ok (w : World) (p : GoString) (b : Bool) (h : w.Stat p = .ok b) :
    (Call.stat p).failure w = none := by
  simp [Call.failure, h]

theorem stat_failure_error (w : World) (p : GoString) (e : OsError) (h : w.Stat p = .error e) :
    (Call.stat p).failure w = some e := by
  simp [Call.failure, h]

theorem readDir_failure_ok (w : World) (p : GoString) (es : List GoString)
    (h : w.ReadDir p = .ok es) : (Call.readDir p).failure w = none := by
  simp [Call.failure, h]

theorem readDir_failure_error (w : World) (p : GoString) (e : OsError)
    (h : w.ReadDir p = .error e) : (Call.readDir p).failure w = some e := by
  simp [Call.failure, h]

theorem mkindexEntriesL_failFast (w : World) (cfg : Config)
    (self : List GoString → Logged (List GoString)) (p : GoString)
    (hself : ∀ ps, FailFast w (self ps)) :
    ∀ es findex, FailFast w (mkindexEntriesL w cfg self p es findex) := by
  intro es
  induction es with
  | nil =>
    intro findex
    exact failFast_done w [] _ (allOk_nil w) (by simp)
  | cons e es ih =>
    intro findex
    unfold mkindexEntriesL
    by_cases hdot : HasPrefix e [DOT] = true
    · rw [if_pos hdot]
      exact ih findex
    · rw [if_neg hdot]
      cases hst : w.Stat (Join [p, e]) with
      | error err =>
        exact failFast_fail w [] _ err (allOk_nil w) (stat_failure_error w _ err hst)
      | ok isDir =>
        have hs : AllOk w [Call.stat (Join [p, e])] :=
          allOk_cons w _ [] (stat_failure_ok w _ isDir hst) (allOk_nil w)
        cases isDir with
        | false =>
          simp only [Bool.false_eq_true, if_false]
          exact failFast_after w _ _ hs (ih _)
        | true =>
          simp only [if_true]
          by_cases hex : isNeedExcludePath cfg (Join [p, e]) = true
          · rw [if_pos hex]
            exact failFast_after w _ _ hs (ih _)
          · rw [if_neg hex]
            have hrecff := hself [Join [p, e]]
            cases hrec : self [Join [p, e]] with
            | mk log o =>
              rw [hrec] at hrecff
              cases o with
              | error err => exact failFast_after w [Call.stat (Join [p, e])] _ hs hrecff
              | timeout => exact failFast_after w [Call.stat (Join [p, e])] _ hs hrecff
              | ok fi =>
                exact failFast_after w _ _
                  (allOk_cons w _ log (stat_failure_ok w _ true hst)
                    (allOk_of_failFast_ok w log fi hrecff)) (ih _)

theorem mkindexPathsL_failFast (w : World) (cfg : Config)
    (self : List GoString → Logged (List GoString))
    (hself : ∀ ps, FailFast w (self ps)) :
    ∀ ps findex, FailFast w (mkindexPathsL w cfg self ps findex) := by
  intro ps
  induction ps with
  | nil =>
    intro findex
    exact failFast_done w [] _ (allOk_nil w) (by simp)
  | cons p ps ih =>
    intro findex
    unfold mkindexPathsL
    cases hst : w.Stat p with
    | error err =>
      exact failFast_fail w [] _ err (allOk_nil w) (stat_failure_error w _ err hst)
    | ok isDir =>
      have hs : AllOk w [Call.stat p] :=
        allOk_cons w _ [] (stat_failure_ok w _ isDir hst) (allOk_nil w)
      cases isDir with
      | false =>
        simp only [Bool.not_false, if_true]
        split_ifs
        · exact failFast_after w _ _ hs (ih _)
        · exact failFast_after w _ _ hs (ih _)
      | true =>
        simp only [Bool.not_true, Bool.false_eq_true, if_false]
        by_cases hex : isNeedExcludePath cfg p = true
        · rw [if_pos hex]
          exact failFast_after w _ _ hs (ih _)
        · rw [if_neg hex]
          cases hrd : w.ReadDir p with
          | error err =>
            exact failFast_fail w [Call.stat p] _ err hs (readDir_failure_error w _ err hrd)
          | ok es =>
            have hsr : AllOk w [Call.stat p, Call.readDir p] :=
              allOk_cons w _ _ (stat_failure_ok w _ true hst)
                (allOk_cons w _ [] (readDir_failure_ok w _ es hrd) (allOk_nil w))
            have hent := mkindexEntriesL_failFast w cfg self p hself es findex
            simp only
            cases hes : mkindexEntriesL w cfg self p es findex with
            | mk log o =>
              rw [hes] at hent
              cases o with
              | error err => exact failFast_after w [Call.stat p, Call.readDir p] _ hsr hent
              | timeout => exact failFast_after w [Call.stat p, Call.readDir p] _ hsr hent
              | ok findex1 =>
                exact failFast_after w _ _
                  (allOk_append w [Call.stat p, Call.readDir p] log hsr
                    (allOk_of_failFast_ok w log findex1 hent)) (ih _)

theorem mkindexL_failFast (w : World) (cfg : Config) :
    ∀ fuel paths, FailFast w (mkindexL w cfg fuel paths) := by
  intro fuel
  induction fuel with
  | zero =>
    intro paths
    exact failFast_done w [] _ (allOk_nil w) (by simp)
  | succ fuel ih =>
    intro paths
    unfold mkindexL
    exact mkindexPathsL_failFast w cfg _ ih paths []

theorem resolveLog_allOk (w : World) (p0 p : GoString)
    (h : (if p0 = [DOT] then w.Getwd else Except.ok p0) = .ok p) : AllOk w (resolveLog p0) := by
  unfold resolveLog
  by_cases hp : p0 = [DOT]
  · rw [if_pos hp] at h
    rw [if_pos hp]
    exact allOk_cons w _ [] (by simp [Call.failure, h]) (allOk_nil w)
  · rw [if_neg hp]
    exact allOk_nil w

theorem resolveLog_fail (w : World) (p0 : GoString) (err : OsError)
    (h : (if p0 = [DOT] then w.Getwd else Except.ok p0) = .error err) :
    resolveLog p0 = [] ++ [Call.getwd] ∧ Call.getwd.failure w = some err := by
  unfold resolveLog
  by_cases hp : p0 = [DOT]
  · rw [if_pos hp] at h
    rw [if_pos hp]
    exact ⟨rfl, by simp [Call.failure, h]⟩
  · rw [if_neg hp] at h
    simp at h

theorem mktreeLoopL_failFast (w : World) (cfg : Config)
    (self : ptree → List GoString → Logged ptree) (tdeep : Int)
    (hself : ∀ t ps, FailFast w (self t ps)) :
    ∀ ps tree, FailFast w (mktreeLoopL w cfg self tdeep ps tree) := by
  intro ps
  induction ps with
  | nil =>
    intro tree
    exact failFast_done w [] _ (allOk_nil w) (by simp)
  | cons p0 rest ih =>
    intro tree
    unfold mktreeLoopL
    cases hres : (if p0 = [DOT] then w.Getwd else Except.ok p0) with
    | error err =>
      obtain ⟨h1, h2⟩ := resolveLog_fail w p0 err hres
      simp only
      rw [h1]
      exact failFast_fail w [] _ err (allOk_nil w) h2
    | ok p =>
      have hr := resolveLog_allOk w p0 p hres
      simp only
      cases hex : isNeedExcludePath cfg p with
      | true =>
        simp only [Bool.not_true, Bool.false_eq_true, if_false]
        exact failFast_after w _ _ hr (ih _)
      | false =>
        simp only [Bool.not_false, if_true]
        cases hst : w.Stat p with
        | error err =>
          exact failFast_fail w _ _ err hr (stat_failure_error w _ err hst)
        | ok isDir =>
          have hs : AllOk w (resolveLog p0 ++ [Call.stat p]) :=
            allOk_append w _ _ hr
              (allOk_cons w _ [] (stat_failure_ok w _ isDir hst) (allOk_nil w))
          simp only
          by_cases hd : (isDir && tdeep != 0) = true
          · rw [if_pos hd]
            cases hrd : w.ReadDir p with
            | error err =>
              have := failFast_fail (α := ptree) w (resolveLog p0 ++ [Call.stat p])
                (Call.readDir p) err hs (readDir_failure_error w _ err hrd)
              simpa using this
            | ok es =>
              have hsr : AllOk w
                  (resolveLog p0 ++ [Call.stat p, Call.readDir p, Call.mktree (tdeep - 1)]) :=
                allOk_append w _ _ hr
                  (allOk_cons w _ _ (stat_failure_ok w _ isDir hst)
                    (allOk_cons w _ _ (readDir_failure_ok w _ es hrd)
                      (allOk_cons w _ [] rfl (allOk_nil w))))
              have hrecff := hself (.mk [] [] p) (es.map (fun e => Join [p, e]))
              simp only
              cases hrec : self (.mk [] [] p) (es.map (fun e => Join [p, e])) with
              | mk log o =>
                rw [hrec] at hrecff
                cases o with
                | error err => exact failFast_after w _ _ hsr hrecff
                | timeout => exact failFast_after w _ _ hsr hrecff
                | ok t =>
                  exact failFast_after w _ _
                    (allOk_append w _ log hsr (allOk_of_failFast_ok w log t hrecff)) (ih _)
          · rw [if_neg hd]
            exact failFast_after w _ _ hs (ih _)

theorem mktreeL_failFast (w : World) (cfg : Config) :
    ∀ fuel tree paths tdeep, FailFast w (mktreeL w cfg fuel tree paths tdeep) := by
  intro fuel
  induction fuel with
  | zero =>
    intro tree paths tdeep
    exact failFast_done w [] _ (allOk_nil w) (by simp)
  | succ fuel ih =>
    intro tree paths tdeep
    unfold mktreeL
    by_cases hb : tdeep = -1
    · rw [if_pos hb]
      exact failFast_done w [] _ (allOk_nil w) (by simp)
    · rw [if_neg hb]
      exact mktreeLoopL_failFast w cfg _ tdeep (fun t ps => ih t ps (tdeep - 1)) paths tree

/-! ## Fatal errors -/

theorem printtree_error (w : World) (cfg : Config) (fuel : Nat) (currpath : GoString)
    (paths : List GoString) (e : OsError) (h : mkindex w cfg fuel paths = .error e) :
    printtree w cfg fuel currpath paths = .error e := by
  unfold printtree
  rw [h]

theorem attempts_error (w : World) (cfg : Config) (fuel : Nat) (pre post : List ptree)
    (node : ptree) (e : OsError) (hpre : (attempts w cfg fuel pre).2 = .ok ())
    (hnode : printtree w cfg fuel node.currpath node.paths = .error e) :
    attempts w cfg fuel (pre ++ node :: post) =
      ((attempts w cfg fuel pre).1 ++ [Event.errorLine e], .error e) := by
  rw [attempts_append]
  cases hp : attempts w cfg fuel pre with
  | mk evs s =>
    rw [hp] at hpre
    simp only at hpre
    subst hpre
    simp only [attempts_cons, hnode]

theorem mainAction_error (w : World) (cfg : Config) (fuel : Nat) (wd : GoString)
    (hwd : w.Getwd = .ok wd) (e : OsError) :
    (mktree w cfg fuel (.mk [] [] (if cfg.tree = 0 then wd else []))
        (if cfg.paths.length = 0 then [wd] else cfg.paths) (tdeepOf cfg.tree) = .error e →
      mainAction w cfg fuel = ([], .error e)) ∧
    (∀ t1 evs,
      mktree w cfg fuel (.mk [] [] (if cfg.tree = 0 then wd else []))
        (if cfg.paths.length = 0 then [wd] else cfg.paths) (tdeepOf cfg.tree) = .ok t1 →
      walk w cfg fuel t1 (tdeepOf cfg.tree) = (evs, .error e) →
      mainAction w cfg fuel = (evs, .error e)) := by
  constructor
  · intro h
    rw [mainAction_depth w cfg fuel wd hwd, h]
  · intro t1 evs h hw
    rw [mainAction_depth w cfg fuel wd hwd, h]
    simp only [hw]

/-- C11: a failure of `os.Stat` or `os.ReadDir` is fatal. In `mkindex` and in `mktree`,
recursive calls included, every call before the last of the log succeeded, and if a call
failed it is the last one and the function returns its error (in `mktree` the `os.Getwd`
for `"."` likewise). `printtree` returns the error of `mkindex` and prints no report;
`walk` then has printed the reports of the earlier nodes and the error line, nothing for
the node itself or for a later node, and returns the error; `mainAction` returns the error
of `mktree` having printed nothing, and the error of `walk` without printing `done!`. -/
theorem stat_readDir_failure_fatal (w : World) (cfg : Config) (fuel : Nat) :
    (∀ paths, (mkindexL w cfg fuel paths).2 = mkindex w cfg fuel paths ∧
      FailFast w (mkindexL w cfg fuel paths)) ∧
    (∀ tree paths tdeep,
      (mktreeL w cfg fuel tree paths tdeep).2 = mktree w cfg fuel tree paths tdeep ∧
      FailFast w (mktreeL w cfg fuel tree paths tdeep)) ∧
    (∀ currpath paths e, mkindex w cfg fuel paths = .error e →
      printtree w cfg fuel currpath paths = .error e) ∧
    (∀ (n : Nat) (t : ptree) (pre post : List ptree) (node : ptree) (e : OsError),
      (nodesAt n t).filter reportable = pre ++ node :: post →
      (attempts w cfg fuel pre).2 = .ok () →
      printtree w cfg fuel node.currpath node.paths = .error e →
      walk w cfg fuel t (n : Int) =
        ((attempts w cfg fuel pre).1 ++ [Event.errorLine e], .error e)) ∧
    (∀ wd e, w.Getwd = .ok wd →
      (mktree w cfg fuel (.mk [] [] (if cfg.tree = 0 then wd else []))
          (if cfg.paths.length = 0 then [wd] else cfg.paths) (tdeepOf cfg.tree) = .error e →
        mainAction w cfg fuel = ([], .error e)) ∧
      (∀ t1 evs,
        mktree w cfg fuel (.mk [] [] (if cfg.tree = 0 then wd else []))
          (if cfg.paths.length = 0 then [wd] else cfg.paths) (tdeepOf cfg.tree) = .ok t1 →
        walk w cfg fuel t1 (tdeepOf cfg.tree) = (evs, .error e) →
        mainAction w cfg fuel = (evs, .error e))) := by
  refine ⟨?_, ?_, ?_, ?_, ?_⟩
  · intro paths
    exact ⟨mkindexL_erase w cfg fuel paths, mkindexL_failFast w cfg fuel paths⟩
  · intro tree paths tdeep
    exact ⟨mktreeL_erase w cfg fuel tree paths tdeep, mktreeL_failFast w cfg fuel tree paths tdeep⟩
  · intro currpath paths e h
    exact printtree_error w cfg fuel currpath paths e h
  · intro n t pre post node e hsplit hpre hnode
    rw [walk_eq_attempts, hsplit]
    exact attempts_error w cfg fuel pre post node e hpre hnode
  · intro wd e hwd
    exact mainAction_error w cfg fuel wd hwd e

/-- C11 at `--tree 1` over `/r` of `brokenWorld`: `os.Stat` fails on `/r/x/s/ghost` inside
the recursive call of `mkindex` for `/r/x/s`; the run has printed the report of `/r/a` and
the error line, no report for `/r/x` or `/r/y`, and returns the error. -/
theorem stat_readDir_failure_fatal_witness :
    mkindexL brokenWorld treeConfig 3
        [[47, 114, 47, 120, 47, 102, 46, 116, 120, 116], [47, 114, 47, 120, 47, 115]] =
      ([Call.stat [47, 114, 47, 120, 47, 102, 46, 116, 120, 116],
        Call.stat [47, 114, 47, 120, 47, 115], Call.readDir [47, 114, 47, 120, 47, 115],
        Call.stat [47, 114, 47, 120, 47, 115, 47, 103, 104, 111, 115, 116]], .error 2) ∧
    mainAction brokenWorld treeConfig 3 =
      ([Event.report [47, 114, 47, 97] 1 [([46, 103, 111], 1)], Event.errorLine 2],
        .error 2) ∧
    printtree brokenWorld treeConfig 3 [47, 114, 47, 120]
        [[47, 114, 47, 120, 47, 102, 46, 116, 120, 116], [47, 114, 47, 120, 47, 115]] =
      .error 2 :=
  ⟨by decide, by decide,
   (stat_readDir_failure_fatal brokenWorld treeConfig 3).2.2.1 [47, 114, 47, 120]
      [[47, 114, 47, 120, 47, 102, 46, 116, 120, 116], [47, 114, 47, 120, 47, 115]] 2
      (by decide)⟩

/-! ## The depth of `mktree` -/

theorem mktreeLoop_congr (w : World) (cfg : Config)
    (self self1 : ptree → List GoString → Outcome ptree) (tdeep : Int)
    (h : tdeep ≠ 0 → ∀ t ps, self t ps = self1 t ps) :
    ∀ ps tree, mktreeLoop w cfg self tdeep ps tree = mktreeLoop w cfg self1 tdeep ps tree := by
  intro ps
  induction ps with
  | nil =>
    intro tree
    rfl
  | cons p0 rest ih =>
    intro tree
    unfold mktreeLoop
    cases hres : (if p0 = [DOT] then w.Getwd else Except.ok p0) with
    | error err => rfl
    | ok p =>
      simp only
      cases hex : isNeedExcludePath cfg p with
      | true =>
        simp only [Bool.not_true, Bool.false_eq_true, if_false]
        exact ih _
      | false =>
        simp only [Bool.not_false, if_true]
        cases hst : w.Stat p with
        | error err => rfl
        | ok isDir =>
          simp only
          by_cases hd : (isDir && tdeep != 0) = true
          · rw [if_pos hd, if_pos hd]
            have hne : tdeep ≠ 0 := by
              simp only [Bool.and_eq_true, bne_iff_ne, ne_eq] at hd
              exact hd.2
            cases hrd : w.ReadDir p with
            | error err => rfl
            | ok es =>
              simp only
              rw [h hne]
              cases self1 (.mk [] [] p) (es.map (fun e => Join [p, e])) with
              | error err => rfl
              | timeout => rfl
              | ok t => exact ih _
          · rw [if_neg hd, if_neg hd]
            exact ih _

theorem mktreeLoop_no_timeout (w : World) (cfg : Config)
    (self : ptree → List GoString → Outcome ptree) (tdeep : Int)
    (h : tdeep ≠ 0 → ∀ t ps, self t ps ≠ .timeout) :
    ∀ ps tree, mktreeLoop w cfg self tdeep ps tree ≠ .timeout := by
  intro ps
  induction ps with
  | nil =>
    intro tree
    simp [mktreeLoop]
  | cons p0 rest ih =>
    intro tree
    unfold mktreeLoop
    cases hres : (if p0 = [DOT] then w.Getwd else Except.ok p0) with
    | error err => simp
    | ok p =>
      simp only
      cases hex : isNeedExcludePath cfg p with
      | true =>
        simp only [Bool.not_true, Bool.false_eq_true, if_false]
        exact ih _
      | false =>
        simp only [Bool.not_false, if_true]
        cases hst : w.Stat p with
        | error err => simp
        | ok isDir =>
          simp only
          by_cases hd : (isDir && tdeep != 0) = true
          · rw [if_pos hd]
            have hne : tdeep ≠ 0 := by
              simp only [Bool.and_eq_true, bne_iff_ne, ne_eq] at hd
              exact hd.2
            cases hrd : w.ReadDir p with
            | error err => simp
            | ok es =>
              simp only
              cases hrec : self (.mk [] [] p) (es.map (fun e => Join [p, e])) with
              | error err => simp
              | timeout => exact absurd hrec (h hne _ _)
              | ok t => exact ih _
          · rw [if_neg hd]
            exact ih _

theorem mktree_no_timeout (w : World) (cfg : Config) :
    ∀ (d fuel : Nat) (tree : ptree) (paths : List GoString), d < fuel →
      mktree w cfg fuel tree paths (d : Int) ≠ .timeout := by
  intro d
  induction d with
  | zero =>
    intro fuel tree paths hf
    cases fuel with
    | zero => omega
    | succ fuel =>
      have h0 : ((0 : Nat) : Int) = 0 := rfl
      rw [h0, mktree_zero_eq]
      exact mktreeLoop_no_timeout w cfg _ 0 (fun h => absurd rfl h) paths tree
  | succ d ih =>
    intro fuel tree paths hf
    cases fuel with
    | zero => omega
    | succ fuel =>
      have h1 : ((d + 1 : Nat) : Int) = (d : Int) + 1 := by push_cast; rfl
      rw [h1, mktree_succ_eq]
      exact mktreeLoop_no_timeout w cfg _ _ (fun _ t ps => ih fuel t ps (by omega)) paths tree

theorem mktree_fuel_indep (w : World) (cfg : Config) :
    ∀ (d fuel fuel1 : Nat) (tree : ptree) (paths : List GoString), d < fuel → d < fuel1 →
      mktree w cfg fuel1 tree paths (d : Int) = mktree w cfg fuel tree paths (d : Int) := by
  intro d
  induction d with
  | zero =>
    intro fuel fuel1 tree paths hf hf1
    cases fuel with
    | zero => omega
    | succ fuel =>
      cases fuel1 with
      | zero => omega
      | succ fuel1 =>
        have h0 : ((0 : Nat) : Int) = 0 := rfl
        rw [h0, mktree_zero_eq, mktree_zero_eq]
        exact mktreeLoop_congr w cfg _ _ 0 (fun h => absurd rfl h) paths tree
  | succ d ih =>
    intro fuel fuel1 tree paths hf hf1
    cases fuel with
    | zero => omega
    | succ fuel =>
      cases fuel1 with
      | zero => omega
      | succ fuel1 =>
        have h1 : ((d + 1 : Nat) : Int) = (d : Int) + 1 := by push_cast; rfl
        rw [h1, mktree_succ_eq, mktree_succ_eq]
        exact mktreeLoop_congr w cfg _ _ _
          (fun _ t ps => ih fuel fuel1 t ps (by omega) (by omega)) paths tree

theorem mem_after {α : Type} (c : Call) (log : List Call) (x : Logged α)
    (h : c ∈ (after log x).1) : c ∈ log ∨ c ∈ x.1 := by
  simpa [after] using h

theorem mktree_not_mem_resolveLog (k : Int) (p0 : GoString) : Call.mktree k ∉ resolveLog p0 := by
  unfold resolveLog
  split_ifs <;> simp

theorem mktreeLoopL_depths (w : World) (cfg : Config)
    (self : ptree → List GoString → Logged ptree) (tdeep : Int) (Q : Int → Prop)
    (hself : ∀ t ps k, Call.mktree k ∈ (self t ps).1 → Q k)
    (hq : tdeep ≠ 0 → Q (tdeep - 1)) :
    ∀ ps tree k, Call.mktree k ∈ (mktreeLoopL w cfg self tdeep ps tree).1 → Q k := by
  intro ps
  induction ps with
  | nil =>
    intro tree k hk
    simp [mktreeLoopL] at hk
  | cons p0 rest ih =>
    intro tree k hk
    have hres0 := mktree_not_mem_resolveLog k p0
    unfold mktreeLoopL at hk
    cases hres : (if p0 = [DOT] then w.Getwd else Except.ok p0) with
    | error err =>
      simp only [hres] at hk
      exact absurd hk hres0
    | ok p =>
      simp only [hres] at hk
      cases hex : isNeedExcludePath cfg p with
      | true =>
        simp only [hex, Bool.not_true, Bool.false_eq_true, if_false] at hk
        rcases mem_after _ _ _ hk with h | h
        · exact absurd h hres0
        · exact ih _ k h
      | false =>
        simp only [hex, Bool.not_false, if_true] at hk
        cases hst : w.Stat p with
        | error err =>
          simp only [hst, List.mem_append, List.mem_singleton] at hk
          rcases hk with h | h
          · exact absurd h hres0
          · cases h
        | ok isDir =>
          simp only [hst] at hk
          by_cases hd : (isDir && tdeep != 0) = true
          · rw [if_pos hd] at hk
            have hne : tdeep ≠ 0 := by
              simp only [Bool.and_eq_true, bne_iff_ne, ne_eq] at hd
              exact hd.2
            have hhead : ∀ log : List Call,
                Call.mktree k ∈ resolveLog p0 ++
                  [Call.stat p, Call.readDir p, Call.mktree (tdeep - 1)] ++ log →
                k = tdeep - 1 ∨ Call.mktree k ∈ log := by
              intro log hm
              simp only [List.mem_append, List.mem_cons, List.mem_singleton, List.not_mem_nil,
                or_false] at hm
              rcases hm with (h | h | h | h) | h
              · exact absurd h hres0
              · cases h
              · cases h
              · injection h with h
                exact Or.inl h
              · exact Or.inr h
            cases hrd : w.ReadDir p with
            | error err =>
              simp only [hrd, List.mem_append, List.mem_cons, List.mem_singleton,
                List.not_mem_nil, or_false] at hk
              rcases hk with h | h | h
              · exact absurd h hres0
              · cases h
              · cases h
            | ok es =>
              simp only [hrd] at hk
              cases hrec : self (.mk [] [] p) (es.map (fun e => Join [p, e])) with
              | mk log o =>
                have hlog : ∀ k1, Call.mktree k1 ∈ log → Q k1 := by
                  intro k1 h1
                  have := hself (.mk [] [] p) (es.map (fun e => Join [p, e])) k1
                  rw [hrec] at this
                  exact this h1
                rw [hrec] at hk
                cases o with
                | error err =>
                  rcases hhead log hk with h | h
                  · rw [h]
                    exact hq hne
                  · exact hlog k h
                | timeout =>
                  rcases hhead log hk with h | h
                  · rw [h]
                    exact hq hne
                  · exact hlog k h
                | ok t =>
                  rcases mem_after _ _ _ hk with h | h
                  · rcases hhead log h with h | h
                    · rw [h]
                      exact hq hne
                    · exact hlog k h
                  · exact ih _ k h
          · rw [if_neg hd] at hk
            rcases mem_after _ _ _ hk with h | h
            · simp only [List.mem_append, List.mem_singleton] at h
              rcases h with h | h
              · exact absurd h hres0
              · cases h
            · exact ih _ k h

theorem mktreeL_base_log (w : World) (cfg : Config) (fuel : Nat) (tree : ptree)
    (paths : List GoString) : (mktreeL w cfg fuel tree paths (-1)).1 = [] := by
  cases fuel with
  | zero => rfl
  | succ fuel => simp [mktreeL]

theorem mktreeL_depths (w : World) (cfg : Config) :
    ∀ (fuel d : Nat) (tree : ptree) (paths : List GoString) (k : Int),
      Call.mktree k ∈ (mktreeL w cfg fuel tree paths (d : Int)).1 → 0 ≤ k ∧ k < (d : Int) := by
  intro fuel
  induction fuel with
  | zero =>
    intro d tree paths k hk
    simp [mktreeL] at hk
  | succ fuel ih =>
    intro d tree paths k hk
    unfold mktreeL at hk
    have hb : ¬ ((d : Int) = -1) := by omega
    rw [if_neg hb] at hk
    refine mktreeLoopL_depths w cfg _ (d : Int) (fun k => 0 ≤ k ∧ k < (d : Int)) ?_ ?_
      paths tree k hk
    · intro t ps k1 h1
      cases d with
      | zero =>
        have h0 : ((0 : Nat) : Int) - 1 = -1 := rfl
        rw [h0, mktreeL_base_log] at h1
        simp at h1
      | succ d =>
        have h1' : ((d + 1 : Nat) : Int) - 1 = (d : Int) := by push_cast; omega
        rw [h1'] at h1
        have := ih d t ps k1 h1
        push_cast
        omega
    · intro hne
      omega

theorem levels_mk (ps : List GoString) (ns : List ptree) (c : GoString) :
    levels (.mk ps ns c) = levelsList ns := by
  rw [levels]

theorem levelsList_cons (t : ptree) (ts : List ptree) :
    levelsList (t :: ts) = max (levels t + 1) (levelsList ts) := by
  rw [levelsList]

theorem levelsList_append (a b : List ptree) :
    levelsList (a ++ b) = max (levelsList a) (levelsList b) := by
  induction a with
  | nil => simp [levelsList]
  | cons t ts ih =>
    rw [List.cons_append, levelsList_cons, levelsList_cons, ih, max_assoc]

theorem levels_eq (t : ptree) : levels t = levelsList t.nodes := by
  cases t with
  | mk ps ns c => rw [levels_mk, ptree.nodes]

theorem no_children_of_levelsList_le_one (ns : List ptree) (h : levelsList ns ≤ 1) :
    ∀ n ∈ ns, n.nodes = [] := by
  induction ns with
  | nil =>
    intro n hn
    simp at hn
  | cons t ts ih =>
    intro n hn
    rw [levelsList_cons] at h
    have h1 : levels t + 1 ≤ 1 := le_trans (le_max_left _ _) h
    have h2 : levelsList ts ≤ 1 := le_trans (le_max_right _ _) h
    rcases List.mem_cons.mp hn with heq | hmem
    · rw [heq]
      have h3 : levelsList t.nodes = 0 := by
        rw [← levels_eq]
        omega
      cases hns : t.nodes with
      | nil => rfl
      | cons a b =>
        rw [hns, levelsList_cons] at h3
        have : levels a + 1 ≤ 0 := by
          rw [← h3]
          exact le_max_left _ _
        omega
    · exact ih h2 n hmem

theorem mktreeLoop_levels (w : World) (cfg : Config)
    (self : ptree → List GoString → Outcome ptree) (tdeep : Int) (m : Nat)
    (hself : ∀ p ps t, self (.mk [] [] p) ps = .ok t → levels t ≤ m) :
    ∀ ps tree tree1, mktreeLoop w cfg self tdeep ps tree = .ok tree1 →
      ∃ newn, tree1.nodes = tree.nodes ++ newn ∧ levelsList newn ≤ m + 1 := by
  intro ps
  induction ps with
  | nil =>
    intro tree tree1 h
    simp only [mktreeLoop, Outcome.ok.injEq] at h
    subst h
    exact ⟨[], by simp, by simp [levelsList]⟩
  | cons p0 rest ih =>
    intro tree tree1 h
    unfold mktreeLoop at h
    cases hres : (if p0 = [DOT] then w.Getwd else Except.ok p0) with
    | error err => simp [hres] at h
    | ok p =>
      simp only [hres] at h
      cases hex : isNeedExcludePath cfg p with
      | true =>
        simp only [hex, Bool.not_true, Bool.false_eq_true, if_false] at h
        exact ih tree tree1 h
      | false =>
        simp only [hex, Bool.not_false, if_true] at h
        cases hst : w.Stat p with
        | error err => simp [hst] at h
        | ok isDir =>
          simp only [hst] at h
          by_cases hd : (isDir && tdeep != 0) = true
          · rw [if_pos hd] at h
            cases hrd : w.ReadDir p with
            | error err => simp [hrd] at h
            | ok es =>
              simp only [hrd] at h
              cases hrec : self (.mk [] [] p) (es.map (fun e => Join [p, e])) with
              | error err => simp [hrec] at h
              | timeout => simp [hrec] at h
              | ok t =>
                simp only [hrec] at h
                obtain ⟨newn, h1, h2⟩ := ih _ tree1 h
                refine ⟨t :: newn, ?_, ?_⟩
                · simpa [ptree.nodes] using h1
                · rw [levelsList_cons]
                  have := hself p _ t hrec
                  exact max_le (by omega) h2
          · rw [if_neg hd] at h
            obtain ⟨newn, h1, h2⟩ := ih _ tree1 h
            exact ⟨newn, by simpa [ptree.nodes] using h1, h2⟩

theorem mktree_levels (w : World) (cfg : Config) :
    ∀ (d fuel : Nat) (tree : ptree) (paths : List GoString) (t1 : ptree),
      mktree w cfg fuel tree paths (d : Int) = .ok t1 →
      ∃ newn, t1.nodes = tree.nodes ++ newn ∧ levelsList newn ≤ d := by
  intro d
  induction d with
  | zero =>
    intro fuel tree paths t1 h
    cases fuel with
    | zero => simp [mktree] at h
    | succ fuel =>
      have h0 : ((0 : Nat) : Int) = 0 := rfl
      rw [h0, mktree_zero_eq] at h
      have ht := mktreeLoop_zero w cfg _ _ _ _ h
      refine ⟨[], ?_, by simp [levelsList]⟩
      rw [ht]
      simp [ptree.nodes]
  | succ d ih =>
    intro fuel tree paths t1 h
    cases fuel with
    | zero => simp [mktree] at h
    | succ fuel =>
      have h1 : ((d + 1 : Nat) : Int) = (d : Int) + 1 := by push_cast; rfl
      rw [h1, mktree_succ_eq] at h
      refine mktreeLoop_levels w cfg _ _ d ?_ paths tree t1 h
      intro p ps t hrec
      obtain ⟨newn, hn1, hn2⟩ := ih fuel _ ps t hrec
      rw [levels_eq, hn1]
      simpa [ptree.nodes] using hn2

/-- C17: for a depth `d ≥ 0` and fuel above `d`, `mktree` returns, with the same result for
any such fuel, whatever the file system; every recursive call it makes has a depth from 0
to `d - 1`, so none has the depth -1; and the nodes it adds have at most `d` levels, so
for `d = 0` no node is added and for `d = 1` the added nodes have no children. -/
theorem mktree_depth_bounded (w : World) (cfg : Config) (fuel : Nat) (tree : ptree)
    (paths : List GoString) (d : Nat) (hfuel : d < fuel) :
    mktree w cfg fuel tree paths (d : Int) ≠ .timeout ∧
    (∀ fuel1, d < fuel1 →
      mktree w cfg fuel1 tree paths (d : Int) = mktree w cfg fuel tree paths (d : Int)) ∧
    (mktreeL w cfg fuel tree paths (d : Int)).2 = mktree w cfg fuel tree paths (d : Int) ∧
    (∀ k, Call.mktree k ∈ (mktreeL w cfg fuel tree paths (d : Int)).1 →
      0 ≤ k ∧ k ≤ (d : Int) - 1) ∧
    (∀ t1, mktree w cfg fuel tree paths (d : Int) = .ok t1 →
      ∃ newn, t1.nodes = tree.nodes ++ newn ∧ levelsList newn ≤ d ∧
        (d = 0 → newn = []) ∧ (d ≤ 1 → ∀ n ∈ newn, n.nodes = [])) := by
  refine ⟨mktree_no_timeout w cfg d fuel tree paths hfuel,
    fun fuel1 h1 => mktree_fuel_indep w cfg d fuel fuel1 tree paths hfuel h1,
    mktreeL_erase w cfg fuel tree paths d, ?_, ?_⟩
  · intro k hk
    have := mktreeL_depths w cfg fuel d tree paths k hk
    omega
  · intro t1 h
    obtain ⟨newn, h1, h2⟩ := mktree_levels w cfg d fuel tree paths t1 h
    refine ⟨newn, h1, h2, ?_, ?_⟩
    · intro hd
      cases newn with
      | nil => rfl
      | cons a b =>
        rw [levelsList_cons, hd] at h2
        have : levels a + 1 ≤ 0 := le_trans (le_max_left _ _) h2
        omega
    · intro hd
      exact no_children_of_levelsList_le_one newn (le_trans h2 hd)

/-- C17 at the root `/r` of `treeWorld` with depth 2: the recursive calls have the depths
1, 0 and 0, and the tree built has the root node with the two children `/r/x` and `/r/y`,
which have no children. -/
theorem mktree_depth_bounded_witness :
    mktreeL treeWorld plainConfig 3 (.mk [] [] []) [[47, 114]] 2 =
      ([Call.stat [47, 114], Call.readDir [47, 114], Call.mktree 1,
        Call.stat [47, 114, 47, 116, 46, 109, 100],
        Call.stat [47, 114, 47, 120], Call.readDir [47, 114, 47, 120], Call.mktree 0,
        Call.stat [47, 114, 47, 120, 47, 102, 46, 116, 120, 116],
        Call.stat [47, 114, 47, 121], Call.readDir [47, 114, 47, 121], Call.mktree 0,
        Call.stat [47, 114, 47, 121, 47, 103, 46, 103, 111]],
       .ok (.mk [[47, 114]]
        [.mk [[47, 114, 47, 116, 46, 109, 100], [47, 114, 47, 120], [47, 114, 47, 121]]
          [.mk [[47, 114, 47, 120, 47, 102, 46, 116, 120, 116]] [] [47, 114, 47, 120],
           .mk [[47, 114, 47, 121, 47, 103, 46, 103, 111]] [] [47, 114, 47, 121]]
          [47, 114]] [])) ∧
    mktree treeWorld plainConfig 3 (.mk [] [] []) [[47, 114]] ((2 : Nat) : Int) ≠ .timeout :=
  ⟨rfl,
   (mktree_depth_bounded treeWorld plainConfig 3 (.mk [] [] []) [[47, 114]] 2 (by decide)).1⟩

/-! ## Hidden root paths -/

theorem excluded_of_hidden (cfg : Config) (p : GoString)
    (h : HasPrefix (Base p) [DOT] = true) : isNeedExcludePath cfg p = true := by
  simp [isNeedExcludePath, h]

theorem mktreeLoopL_skip (w : World) (cfg : Config)
    (self : ptree → List GoString → Logged ptree) (tdeep : Int) (p : GoString)
    (rest : List GoString) (tree : ptree) (hp : p ≠ [DOT])
    (hex : isNeedExcludePath cfg p = true) :
    mktreeLoopL w cfg self tdeep (p :: rest) tree = mktreeLoopL w cfg self tdeep rest tree := by
  rw [mktreeLoopL]
  simp [hp, hex, after, resolveLog]

theorem mktreeL_skip (w : World) (cfg : Config) (fuel : Nat) (tree : ptree) (tdeep : Int)
    (p : GoString) (rest : List GoString) (hp : p ≠ [DOT])
    (hex : isNeedExcludePath cfg p = true) :
    mktreeL w cfg (fuel + 1) tree (p :: rest) tdeep = mktreeL w cfg (fuel + 1) tree rest tdeep := by
  rw [mktreeL, mktreeL]
  by_cases hb : tdeep = -1
  · rw [if_pos hb, if_pos hb]
  · rw [if_neg hb, if_neg hb]
    exact mktreeLoopL_skip w cfg _ tdeep p rest tree hp hex

theorem mktreeL_nil (w : World) (cfg : Config) (fuel : Nat) (tree : ptree) (tdeep : Int) :
    mktreeL w cfg (fuel + 1) tree [] tdeep = ([], .ok tree) := by
  rw [mktreeL]
  by_cases hb : tdeep = -1
  · rw [if_pos hb]
  · rw [if_neg hb]
    rfl

theorem walk_empty (w : World) (cfg : Config) (fuel : Nat) (c : GoString) (k : Int) :
    walk w cfg fuel (.mk [] [] c) k = ([], .ok ()) := by
  rw [walk]
  simp

theorem mainAction_excluded_root (w : World) (cfg : Config) (fuel : Nat) (p wd : GoString)
    (hp : p ≠ [DOT]) (hex : isNeedExcludePath cfg p = true) (hwd : w.Getwd = .ok wd)
    (hpaths : cfg.paths = [p]) :
    mainAction w cfg (fuel + 1) = ([Event.done], .ok ()) := by
  rw [mainAction_depth w cfg (fuel + 1) wd hwd, hpaths]
  have hlen : ¬ ([p].length = 0) := by simp
  rw [if_neg hlen, ← mktreeL_erase, mktreeL_skip w cfg fuel _ _ p [] hp hex, mktreeL_nil]
  simp only [walk_empty]
  rfl

theorem mktreeL_dot (w : World) (cfg : Config) (fuel : Nat) (tree : ptree) (tdeep : Int)
    (wd : GoString) (hwd : w.Getwd = .ok wd) (hb : tdeep ≠ -1) :
    (isNeedExcludePath cfg wd = true →
      mktreeL w cfg (fuel + 1) tree [[DOT]] tdeep = ([Call.getwd], .ok tree)) ∧
    (isNeedExcludePath cfg wd = false →
      ∃ log, (mktreeL w cfg (fuel + 1) tree [[DOT]] tdeep).1 =
        Call.getwd :: Call.stat wd :: log) := by
  constructor
  · intro hex
    rw [mktreeL, if_neg hb, mktreeLoopL]
    simp [hwd, hex, after, resolveLog, mktreeLoopL]
  · intro hex
    rw [mktreeL, if_neg hb, mktreeLoopL]
    simp only [if_true, hwd, hex, Bool.not_false, resolveLog]
    cases hst : w.Stat wd with
    | error err => exact ⟨[], rfl⟩
    | ok isDir =>
      simp only
      by_cases hd : (isDir && tdeep != 0) = true
      · rw [if_pos hd]
        cases hrd : w.ReadDir wd with
        | error err => exact ⟨_, rfl⟩
        | ok es =>
          simp only
          cases hrec : mktreeL w cfg fuel (.mk [] [] wd) (es.map (fun e => Join [wd, e]))
              (tdeep - 1) with
          | mk log o =>
            cases o with
            | error err => exact ⟨_, rfl⟩
            | timeout => exact ⟨_, rfl⟩
            | ok t => exact ⟨_, rfl⟩
      · rw [if_neg hd]
        exact ⟨_, rfl⟩

/-- C18, the claim as stated fails: in `goWorld` the working directory `/p.go` has a base
name that neither starts with a dot nor is in the exclude list `[".go"]`, yet the root
`"."` is excluded, through the extension of the working directory: `mktree` makes the
`os.Getwd` call only and adds nothing, and the run prints no report. -/
theorem dot_root_excluded_by_extension :
    goWorld.Getwd = .ok [47, 112, 46, 103, 111] ∧
    HasPrefix (Base [47, 112, 46, 103, 111]) [DOT] = false ∧
    Base [47, 112, 46, 103, 111] ∉ goConfig.excludes ∧
    mktreeL goWorld goConfig 1 (.mk [] [] [47, 112, 46, 103, 111]) [[46]] 0 =
      ([Call.getwd], .ok (.mk [] [] [47, 112, 46, 103, 111])) ∧
    mainAction goWorld goConfig 1 = ([Event.done], .ok ()) ∧
    mainAction goWorld plainConfig 1 =
      ([Event.report [47, 112, 46, 103, 111] 1 [([46, 116, 120, 116], 2)], Event.done],
        .ok ()) :=
  ⟨rfl, by decide, by decide, rfl, by decide, by decide⟩

/-- C18 as amended: a root path other than `"."` whose base name starts with a dot is
skipped by `mktree` without any call, path, node or error, so a run whose only root is
such a path prints `done!` and no report; the literal `"."` is replaced by the working
directory, which is skipped exactly when `isNeedExcludePath` holds of it, that is when its
base name starts with a dot or its base name or its extension is in the exclude list, and
is examined by `os.Stat` otherwise. -/
theorem mktree_skips_hidden_root (w : World) (cfg : Config) (fuel : Nat) (tree : ptree)
    (tdeep : Int) :
    (∀ p rest, p ≠ [DOT] → HasPrefix (Base p) [DOT] = true →
      mktreeL w cfg (fuel + 1) tree (p :: rest) tdeep =
        mktreeL w cfg (fuel + 1) tree rest tdeep ∧
      mktreeL w cfg (fuel + 1) tree [p] tdeep = ([], .ok tree) ∧
      mktree w cfg (fuel + 1) tree [p] tdeep = .ok tree) ∧
    (∀ p wd, p ≠ [DOT] → HasPrefix (Base p) [DOT] = true → w.Getwd = .ok wd →
      cfg.paths = [p] → mainAction w cfg (fuel + 1) = ([Event.done], .ok ())) ∧
    (∀ wd, w.Getwd = .ok wd → tdeep ≠ -1 →
      (isNeedExcludePath cfg wd = true ↔
        HasPrefix (Base wd) [DOT] = true ∨ Base wd ∈ cfg.excludes ∨
          Ext wd ∈ cfg.excludes) ∧
      (isNeedExcludePath cfg wd = true →
        mktreeL w cfg (fuel + 1) tree [[DOT]] tdeep = ([Call.getwd], .ok tree)) ∧
      (isNeedExcludePath cfg wd = false →
        ∃ log, (mktreeL w cfg (fuel + 1) tree [[DOT]] tdeep).1 =
          Call.getwd :: Call.stat wd :: log)) := by
  refine ⟨?_, ?_, ?_⟩
  · intro p rest hp hhid
    have hex := excluded_of_hidden cfg p hhid
    have hone : mktreeL w cfg (fuel + 1) tree [p] tdeep = ([], .ok tree) := by
      rw [mktreeL_skip w cfg fuel tree tdeep p [] hp hex, mktreeL_nil]
    refine ⟨mktreeL_skip w cfg fuel tree tdeep p rest hp hex, hone, ?_⟩
    rw [← mktreeL_erase, hone]
  · intro p wd hp hhid hwd hpaths
    exact mainAction_excluded_root w cfg fuel p wd hp (excluded_of_hidden cfg p hhid) hwd hpaths
  · intro wd hwd hb
    refine ⟨?_, (mktreeL_dot w cfg fuel tree tdeep wd hwd hb).1,
      (mktreeL_dot w cfg fuel tree tdeep wd hwd hb).2⟩
    unfold isNeedExcludePath
    simp [or_assoc]

/-- C18 as amended at the root `..` in `treeWorld`: no call, nothing added, no report. -/
theorem mktree_skips_hidden_root_witness :
    mktreeL treeWorld parentConfig 1 (.mk [] [] [47, 114]) [[46, 46]] 0 =
      ([], .ok (.mk [] [] [47, 114])) ∧
    mainAction treeWorld parentConfig 1 = ([Event.done], .ok ()) :=
  ⟨((mktree_skips_hidden_root treeWorld parentConfig 0 (.mk [] [] [47, 114]) 0).1
      [46, 46] [] (by decide) (by decide)).2.1,
   (mktree_skips_hidden_root treeWorld parentConfig 0 (.mk [] [] [47, 114]) 0).2.1
      [46, 46] [47, 114] (by decide) (by decide) rfl rfl⟩

end Count
